import Mathlib

/-!
# Observatorio Electoral: the poll reshaping pipeline of `src/App.jsx`

A shallow embedding of the data pipeline of `App.jsx`:

* the `complete` callback of `useGoogleSheetData` (row validation and the
  fold that builds `processed`),
* `rankingData` of `RankingView`,
* `chartData` of `EvolutionView`,
* `comparisonData` of `ComparisonView`.

Modelling conventions.

* A JavaScript object is an association list of its own string-keyed
  properties, in insertion order, with at most one entry per key (the
  enumeration order of integer-like keys is outside the model).
* The fold reads `processed[pollster]` and `data[candidate]` through the
  prototype chain (`lookup`): a name of `Object.prototype` reads as an object,
  and what the fold writes onto such objects is part of its state.
* The three views are given a dataset and read its own properties, for a
  prototype that carries no numeric property.
* A JavaScript array that may have holes is a `List (Option ℚ)`; a hole and
  `undefined` are both `none`, and reading past the end gives `none`.
* Numbers are exact rationals.  `NaN` is the `none` result of the number
  parser; rounding and the infinities are outside the model.
* The method `sort` is the stable sort of the language standard.
* Display-only fields (`party` and `color` of a ranking entry) are left out.
-/

namespace ObservatorioElectoral

/-! ## JavaScript objects as association lists -/

/-- Property read `o[k]`: the value stored under `k`, or `none` (undefined). -/
def objGet {α : Type} : List (String × α) → String → Option α
  | [], _ => none
  | (k', v) :: o, k => if k' = k then some v else objGet o k

/-- Property write `o[k] = v`: overwrite in place when `k` is already a
property, create the property at the end otherwise. -/
def objSet {α : Type} : List (String × α) → String → α → List (String × α)
  | [], k, v => [(k, v)]
  | (k', v') :: o, k, v => if k' = k then (k', v) :: o else (k', v') :: objSet o k v

/-- The property names, as `Object.keys` lists them. -/
def objKeys {α : Type} (o : List (String × α)) : List String := o.map Prod.fst

/-! ## Arrays with holes -/

/-- Indexed read `arr[i]`: `none` for a hole and for an index past the end. -/
def arrGet (arr : List (Option ℚ)) (i : Nat) : Option ℚ := (arr.get? i).join

/-- Indexed write `arr[i] = v`: positions between the old end and `i` become
holes. -/
def arrSet : List (Option ℚ) → Nat → ℚ → List (Option ℚ)
  | [], 0, v => [some v]
  | [], i + 1, v => none :: arrSet [] i v
  | _ :: arr, 0, v => some v :: arr
  | x :: arr, i + 1, v => x :: arrSet arr i v

/-- The filter `values.filter(v => v != null)`: the present values, in index
order. -/
def validValues (values : List (Option ℚ)) : List ℚ := values.filterMap id

/-! ## Data model -/

/-- One parsed CSV line: the four columns read by the callback, each of them
`none` when the line has no such field. -/
structure RawRow where
  Encuestadora : Option String
  Periodo : Option String
  Candidato : Option String
  Valor : Option String
  deriving DecidableEq, Repr

/-- A row that passed validation. -/
structure NormalizedRow where
  pollster : String
  period : String
  candidate : String
  value : ℚ
  deriving DecidableEq, Repr

/-- The per-pollster object stored in `processed`. -/
structure SourceSeries where
  name : String
  color : String
  periods : List String
  data : List (String × List (Option ℚ))
  deriving DecidableEq, Repr

/-- The object `processed`, handed to the views as `pollData`. -/
abbrev PollDataset := List (String × SourceSeries)

/-! ## Row validation -/

/-- White space and line terminators removed by `String.prototype.trim`. -/
def isTrimChar (c : Char) : Bool :=
  c.val = 0x09 || c.val = 0x0A || c.val = 0x0B || c.val = 0x0C || c.val = 0x0D ||
  c.val = 0x20 || c.val = 0xA0 || c.val = 0x1680 ||
  (0x2000 ≤ c.val && c.val ≤ 0x200A) ||
  c.val = 0x2028 || c.val = 0x2029 || c.val = 0x202F || c.val = 0x205F ||
  c.val = 0x3000 || c.val = 0xFEFF

/-- The method `trim` on a string. -/
def trim (s : String) : String :=
  ⟨((s.data.dropWhile isTrimChar).reverse.dropWhile isTrimChar).reverse⟩

/-- The table `pollsterColors`. -/
def pollsterColors : List (String × String) :=
  [("DATUM", "#3b82f6"), ("CPI", "#ef4444"), ("IPSOS", "#22c55e"), ("IEP", "#a855f7")]

/-- The longest run of decimal digits at the front of the text, as digit
values, and the text after it. -/
def takeDigits : List Char → List Nat × List Char
  | [] => ([], [])
  | c :: cs =>
    if c.isDigit then ((c.toNat - 48) :: (takeDigits cs).1, (takeDigits cs).2)
    else ([], c :: cs)

/-- The number written by a run of decimal digits. -/
def digitsValue (ds : List Nat) : Nat := ds.foldl (fun n d => 10 * n + d) 0

/-- The exponent part `e`, `e+` or `e-` followed by digits, when the text
starts with one; exponent 0 otherwise. -/
def exponentPart (cs : List Char) : Int :=
  match cs with
  | [] => 0
  | e :: rest =>
    if e = 'e' ∨ e = 'E' then
      match rest with
      | '+' :: r => digitsValue (takeDigits r).1
      | '-' :: r => - (digitsValue (takeDigits r).1 : Int)
      | r => digitsValue (takeDigits r).1
    else 0

/-- The longest prefix that is an unsigned decimal literal (`12`, `12.`,
`12.5`, `.5`, each with an optional exponent), as an exact rational; `none`
when no prefix is one. -/
def parseUnsigned (cs : List Char) : Option ℚ :=
  let ip := takeDigits cs
  match ip.2 with
  | '.' :: r =>
    let fp := takeDigits r
    if ip.1 = [] ∧ fp.1 = [] then none
    else some ((digitsValue (ip.1 ++ fp.1) : ℚ) * (10 : ℚ) ^ (exponentPart fp.2 - fp.1.length))
  | r =>
    if ip.1 = [] then none
    else some ((digitsValue ip.1 : ℚ) * (10 : ℚ) ^ exponentPart r)

/-- The built-in `parseFloat` on finite decimal text: leading white space is
skipped, then the longest prefix that is a signed decimal literal is read;
`none` (`NaN`) when there is no such prefix or no text at all.  The value is
the exact decimal.  On the literal `Infinity` the built-in gives an infinity,
which the exact numbers do not have: this function gives `none` there and is
used on other text only; the theorems take the parser as a parameter. -/
def parseFloat (text : Option String) : Option ℚ :=
  match text with
  | none => none
  | some s =>
    match s.data.dropWhile isTrimChar with
    | '+' :: r => parseUnsigned r
    | '-' :: r => (parseUnsigned r).map fun q => -q
    | r => parseUnsigned r

/-- A text column that is missing, or empty once trimmed. -/
def isBlank : Option String → Bool
  | none => true
  | some s => trim s = ""

/-- Lines 94-99: trim the three text columns, parse the value, and give up on
the row when a text is missing or empty or the value is `NaN`.  The built-in
number parser is the parameter `parse`; `none` is its `NaN`. -/
def normalizeRow (parse : Option String → Option ℚ) (row : RawRow) :
    Option NormalizedRow :=
  let pollster := row.Encuestadora.map trim
  let period := row.Periodo.map trim
  let candidate := row.Candidato.map trim
  let value := parse row.Valor
  match pollster, period, candidate, value with
  | some p, some t, some c, some v =>
    if p = "" ∨ t = "" ∨ c = "" then none else some ⟨p, t, c, v⟩
  | _, _, _, _ => none

/-! ## Inherited properties

`processed` and every `data` are plain objects, so a read `obj[key]` that
finds no own property goes on to `Object.prototype`.  The fold tests such reads
for truth (lines 101 and 114) and writes through them (line 119). -/

/-- The property names every plain object inherits from `Object.prototype`.
Each reads as an object: a function, or for `__proto__` the prototype
itself. -/
def inheritedMembers : List String :=
  ["constructor", "__defineGetter__", "__defineSetter__", "hasOwnProperty",
   "__lookupGetter__", "__lookupSetter__", "isPrototypeOf", "propertyIsEnumerable",
   "toString", "valueOf", "__proto__", "toLocaleString"]

/-- The numeric properties the fold has written onto inherited objects, by
member name; under `__proto__` those of `Object.prototype` itself, which every
object and array then inherits. -/
abbrev InheritedProps := List (String × List (Option ℚ))

/-- The index a property name stands for when it is the decimal form of an
index (`"0"`, `"7"`, `"12"`, not `"07"`). -/
def arrayIndex (key : String) : Option Nat :=
  if key.data ≠ [] ∧ (takeDigits key.data).2 = [] ∧
      (key = "0" ∨ key.data.head? ≠ some '0') then
    some (digitsValue (takeDigits key.data).1)
  else none

/-- What a read `obj[key]` of a plain object finds. -/
inductive Lookup (α : Type) where
  | own (v : α)
  | object
  | number (v : ℚ)
  | undefined
  deriving DecidableEq, Repr

/-- The read `obj[key]` of a plain object: the own property, else the
inherited member, else a numeric property written onto `Object.prototype`,
else `undefined`. -/
def lookup {α : Type} (inherited : InheritedProps) (obj : List (String × α))
    (key : String) : Lookup α :=
  match objGet obj key with
  | some v => Lookup.own v
  | none =>
    if key ∈ inheritedMembers then Lookup.object
    else
      match arrayIndex key with
      | none => Lookup.undefined
      | some n =>
        match arrGet ((objGet inherited "__proto__").getD []) n with
        | some v => Lookup.number v
        | none => Lookup.undefined

/-- Truth of what a read finds: objects and arrays are true, a number is true
unless it is 0, `undefined` is false. -/
def Lookup.truthy {α : Type} : Lookup α → Bool
  | Lookup.own _ => true
  | Lookup.object => true
  | Lookup.number v => v ≠ 0
  | Lookup.undefined => false

/-- The read `values[i]` of an array: the own element, else the numeric
property `i` of `Object.prototype`. -/
def arrayRead (inherited : InheritedProps) (values : List (Option ℚ)) (i : Nat) : Option ℚ :=
  match arrGet values i with
  | some v => some v
  | none => arrGet ((objGet inherited "__proto__").getD []) i

/-! ## The fold that builds `processed` -/

/-- The state of the `forEach` of the `complete` callback: the object
`processed`, the numeric properties written onto inherited objects, and whether
a `TypeError` has ended the loop. -/
structure FoldState where
  processed : PollDataset
  inherited : InheritedProps
  thrown : Bool
  deriving DecidableEq, Repr

/-- The state before the first row: `processed = {}`, nothing written onto
inherited objects. -/
def FoldState.initial : FoldState := ⟨[], [], false⟩

/-- Lines 110-112: `push` the period unless `includes` finds it. -/
def addPeriod (periods : List String) (period : String) : List String :=
  if period ∈ periods then periods else periods ++ [period]

/-- Lines 102-107: the object created for a pollster.  It is created only
when the read of the pollster name is false, and then the read of the colour
table finds the own entry or nothing true. -/
def freshSeries (pollster : String) : SourceSeries :=
  { name := pollster
    color := (objGet pollsterColors pollster).getD "#888888"
    periods := []
    data := [] }

/-- Lines 110-119, once `processed[pollster]` is the series `series` and
`processed₁` is `processed` after line 108.

* Lines 110-112 record the period.
* Line 114 creates the array when `data[candidate]` is false.
* Line 119 writes at the index of the period: into the own array; onto the
  inherited object when `data[candidate]` is one; and it throws when
  `data[candidate]` is a number (module code is strict), the period staying
  recorded. -/
def recordValue (st : FoldState) (processed₁ : PollDataset) (series : SourceSeries)
    (row : NormalizedRow) : FoldState :=
  let periods := addPeriod series.periods row.period
  let data₁ :=
    if (lookup st.inherited series.data row.candidate).truthy then series.data
    else objSet series.data row.candidate []
  let periodIndex := periods.indexOf row.period
  match lookup st.inherited data₁ row.candidate with
  | Lookup.own values =>
    { processed := objSet processed₁ row.pollster
        { series with
          periods := periods
          data := objSet data₁ row.candidate (arrSet values periodIndex row.value) }
      inherited := st.inherited
      thrown := false }
  | Lookup.object =>
    { processed := objSet processed₁ row.pollster
        { series with periods := periods, data := data₁ }
      inherited := objSet st.inherited row.candidate
        (arrSet ((objGet st.inherited row.candidate).getD []) periodIndex row.value)
      thrown := false }
  | _ =>
    { processed := objSet processed₁ row.pollster
        { series with periods := periods, data := data₁ }
      inherited := st.inherited
      thrown := true }

/-- Lines 101-119: fold one validated row into the state; nothing is done
once the loop has thrown.

Line 101 creates the series when `processed[pollster]` is false.  When the
read is true without an own series (an inherited member, or a non-zero number
on the prototype), line 110 reads `periods` of something that has none and
throws. -/
def indexRow (st : FoldState) (row : NormalizedRow) : FoldState :=
  if st.thrown then st
  else
    let processed₁ :=
      if (lookup st.inherited st.processed row.pollster).truthy then st.processed
      else objSet st.processed row.pollster (freshSeries row.pollster)
    match objGet processed₁ row.pollster with
    | none => { st with thrown := true }
    | some series => recordValue st processed₁ series row

/-- The body of `results.data.forEach`: an invalid row returns early. -/
def processRow (parse : Option String → Option ℚ) (st : FoldState)
    (row : RawRow) : FoldState :=
  match normalizeRow parse row with
  | none => st
  | some r => indexRow st r

/-- The fold over validated rows, from the initial state. -/
def foldRows (rows : List NormalizedRow) : FoldState := rows.foldl indexRow FoldState.initial

/-- The object `processed` after the fold over validated rows. -/
def indexRows (rows : List NormalizedRow) : PollDataset := (foldRows rows).processed

/-- The `complete` callback: the state after all of `results.data`. -/
def complete (parse : Option String → Option ℚ) (data : List RawRow) : FoldState :=
  data.foldl (processRow parse) FoldState.initial

/-- What `setData` receives (line 122): `processed`, or nothing when the loop
threw, the exception being caught at line 131. -/
def delivered (st : FoldState) : Option PollDataset :=
  if st.thrown then none else some st.processed

/-! ## Steps that do not throw

What a step that does not throw leaves in `processed`, as a function of
`processed` alone (`processed_indexRow` relates it to `indexRow`). -/

/-- The series stored under `pollster`, or the fresh one. -/
def seriesOrFresh (processed : PollDataset) (pollster : String) : SourceSeries :=
  match objGet processed pollster with
  | some s => s
  | none => freshSeries pollster

/-- The series with the period recorded. -/
def pushPeriod (series : SourceSeries) (period : String) : SourceSeries :=
  { series with periods := addPeriod series.periods period }

/-- The series with the period recorded and the value written into the own
array of the candidate. -/
def writeValue (series : SourceSeries) (row : NormalizedRow) : SourceSeries :=
  let periods := addPeriod series.periods row.period
  let values := (objGet series.data row.candidate).getD []
  let periodIndex := periods.indexOf row.period
  { series with
    periods := periods
    data := objSet series.data row.candidate (arrSet values periodIndex row.value) }

/-- The series after a step that does not throw: a candidate named like an
inherited member gets no own array. -/
def stepSeries (series : SourceSeries) (row : NormalizedRow) : SourceSeries :=
  if row.candidate ∈ inheritedMembers then pushPeriod series row.period
  else writeValue series row

/-- The object `processed` after a step that does not throw. -/
def advance (processed : PollDataset) (row : NormalizedRow) : PollDataset :=
  objSet processed row.pollster (stepSeries (seriesOrFresh processed row.pollster) row)

/-- The object `processed` after a fold in which no step throws. -/
def pureFold (rows : List NormalizedRow) : PollDataset := rows.foldl advance []

/-- The rows whose candidate is not named like an inherited member. -/
def ownRows (rows : List NormalizedRow) : List NormalizedRow :=
  rows.filter fun r => r.candidate ∉ inheritedMembers

/-! ## Sorting -/

/-- The method `sort` with a comparison function.  The built-in sort is stable
and puts `a` before `b` when `compareFn a b` is negative; for a comparison
function that is a consistent ordering this is insertion in order, an element
going in front of the first element it does not have to follow. -/
def jsSort {α : Type} (compareFn : α → α → ℚ) (arr : List α) : List α :=
  arr.insertionSort fun a b => compareFn a b ≤ 0

/-! ## `rankingData` -/

/-- One entry of the ranking (the display fields `party` and `color` are left
out).  `value` is `none` for `null`. -/
structure RankingItem where
  candidate : String
  value : Option ℚ
  trend : ℚ
  deriving DecidableEq, Repr

/-- The number a value is in an arithmetic expression: `null` counts as 0. -/
def toNumber : Option ℚ → ℚ
  | some q => q
  | none => 0

/-- Lines 212-225: the entry computed for one candidate of the series. -/
def rankingItem (candidate : String) (values : List (Option ℚ)) : RankingItem :=
  let valid := validValues values
  let lastValue := if valid.length > 0 then valid[valid.length - 1]? else none
  let prevValue := if valid.length > 1 then valid[valid.length - 2]? else none
  let trend :=
    match lastValue, prevValue with
    | some l, some p => l - p
    | _, _ => 0
  { candidate := candidate, value := lastValue, trend := trend }

/-- Lines 206-228: `rankingData` of `RankingView`; `pollData` is `none` while
it is `null`. -/
def rankingData (pollData : Option PollDataset) (pollster : String) : List RankingItem :=
  match pollData with
  | none => []
  | some pd =>
    match objGet pd pollster with
    | none => []
    | some data =>
      jsSort (fun a b => toNumber b.value - toNumber a.value)
        ((data.data.map fun e => rankingItem e.1 e.2).filter fun item => item.value.isSome)

/-- Each entry has a value strictly greater than that of the next entry. -/
def StrictlyDescending (items : List RankingItem) : Prop :=
  items.Chain' fun a b => toNumber b.value < toNumber a.value

/-- Each entry has a value greater than or equal to that of the next entry. -/
def Descending (items : List RankingItem) : Prop :=
  items.Chain' fun a b => toNumber b.value ≤ toNumber a.value

/-- The present values of an array, the latest first. -/
def presentLatestFirst (values : List (Option ℚ)) : List ℚ := values.reverse.filterMap id

/-- What the specification asks of the entry of a candidate with the array
`values`: its value is the last present value, and its trend is that value
minus the present value before it, or 0 when there is only one. -/
def RankingSpec (values : List (Option ℚ)) (item : RankingItem) : Prop :=
  match presentLatestFirst values with
  | [] => False
  | [l] => item.value = some l ∧ item.trend = 0
  | l :: p :: _ => item.value = some l ∧ item.trend = l - p

/-! ## `chartData` and `comparisonData` -/

/-- A value held by a chart point or a comparison row. -/
inductive JSVal where
  | str (s : String)
  | num (q : ℚ)
  | null
  | undefined
  deriving DecidableEq, Repr

/-- The value an array read gives: the number, or `undefined` for a hole and
past the end. -/
def JSVal.ofEntry : Option ℚ → JSVal
  | some q => JSVal.num q
  | none => JSVal.undefined

/-- A chart point or comparison row: an object of values. -/
abbrev JSObject := List (String × JSVal)

/-- The read `o[k]` as a value: `undefined` when `o` has no property `k`. -/
def objRead (o : JSObject) (k : String) : JSVal := (objGet o k).getD JSVal.undefined

/-- Lines 304-310: the point of one period.  It starts as `{ name: period }`;
each selected candidate that has an array in the series then stores, under its
own name, what the array holds at `idx`. -/
def chartPoint (data : SourceSeries) (selectedCandidates : List String) (period : String)
    (idx : Nat) : JSObject :=
  selectedCandidates.foldl
    (fun point candidate =>
      match objGet data.data candidate with
      | some values => objSet point candidate (JSVal.ofEntry (arrGet values idx))
      | none => point)
    [("name", JSVal.str period)]

/-- Lines 298-312: `chartData` of `EvolutionView`; `pollData` is `none` while
it is `null`. -/
def chartData (pollData : Option PollDataset) (pollster : String)
    (selectedCandidates : List String) : List JSObject :=
  match pollData.bind fun pd => objGet pd pollster with
  | none => []
  | some data =>
    data.periods.enum.map fun p => chartPoint data selectedCandidates p.2 p.1

/-- Lines 361-362: the last valid value of the candidate's array, `null` when
the candidate has no array or the array has no valid value. -/
def lastOrNull (values : Option (List (Option ℚ))) : JSVal :=
  match values.map validValues with
  | some valid =>
    if valid.length > 0 then JSVal.ofEntry valid[valid.length - 1]? else JSVal.null
  | none => JSVal.null

/-- Lines 359-364: the row of one candidate.  It starts as `{ candidate }`;
each pollster of the dataset then stores its last value under its key. -/
def comparisonRow (pollData : PollDataset) (candidate : String) : JSObject :=
  pollData.foldl
    (fun row e => objSet row e.1 (lastOrNull (objGet e.2.data candidate)))
    [("candidate", JSVal.str candidate)]

/-- The test `v != null`, false for `null` and for `undefined`. -/
def JSVal.notNull : JSVal → Bool
  | JSVal.null => false
  | JSVal.undefined => false
  | _ => true

/-- The number added by the `reduce` of the comparator.  Every value it meets
was stored under a pollster key by `comparisonRow` and passed `notNull`, so it
is a number. -/
def JSVal.toNumber : JSVal → ℚ
  | JSVal.num q => q
  | _ => 0

/-- Lines 366-369: the average a row is sorted by: the values under the
pollster keys that are not `null`, summed and divided by their count, or 0
when there is none. -/
def rowAverage (pollData : PollDataset) (row : JSObject) : ℚ :=
  let avg := ((objKeys pollData).map fun k => objRead row k).filter JSVal.notNull
  if avg.length > 0 then avg.foldl (fun x y => x + y.toNumber) 0 / avg.length else 0

/-- Lines 355-372: `comparisonData` of `ComparisonView`; `pollData` is `none`
while it is `null`. -/
def comparisonData (pollData : Option PollDataset) (selectedCandidates : List String) :
    List JSObject :=
  match pollData with
  | none => []
  | some pd =>
    jsSort (fun a b => rowAverage pd b - rowAverage pd a)
      (selectedCandidates.map fun candidate => comparisonRow pd candidate)

/-- The last values a row holds for the pollsters of the dataset, the absent
ones left out. -/
def presentLastValues (pd : PollDataset) (row : JSObject) : List ℚ :=
  (objKeys pd).filterMap fun k =>
    match objGet row k with
    | some (JSVal.num q) => some q
    | _ => none

/-- The mean of the present last values of a row, taken as 0 when the row has
none. -/
def rowMean (pd : PollDataset) (row : JSObject) : ℚ :=
  if presentLastValues pd row = [] then 0
  else (presentLastValues pd row).sum / (presentLastValues pd row).length

/-- The last non-absent value of the candidate's array as a row stores it: the
number, or the absent marker `null` when there is no array or no present
value. -/
def storedLastValue (values : Option (List (Option ℚ))) : JSVal :=
  match values with
  | none => JSVal.null
  | some vs =>
    match presentLatestFirst vs with
    | [] => JSVal.null
    | v :: _ => JSVal.num v

/-! ## Invariants of `processed` -/

/-- An object has at most one property per name: the dataset has one series
per pollster and each series one array per candidate. -/
def WellFormed (pd : PollDataset) : Prop :=
  (objKeys pd).Nodup ∧ ∀ e ∈ pd, (objKeys e.2.data).Nodup

instance (pd : PollDataset) : Decidable (WellFormed pd) :=
  inferInstanceAs (Decidable ((objKeys pd).Nodup ∧ ∀ e ∈ pd, (objKeys e.2.data).Nodup))

/-- Every candidate array of a series is no longer than its period list, and
the period list has no repeated label. -/
def SeriesInv (s : SourceSeries) : Prop :=
  s.periods.Nodup ∧ ∀ e ∈ s.data, e.2.length ≤ s.periods.length

/-- Every series of the dataset satisfies `SeriesInv`. -/
def DatasetInv (ds : PollDataset) : Prop := ∀ e ∈ ds, SeriesInv e.2

/-! ## Reading the dataset, and the words of the specification -/

/-- The period list of a pollster; empty when the pollster has no series. -/
def periodsOf (ds : PollDataset) (pollster : String) : List String :=
  match objGet ds pollster with
  | none => []
  | some series => series.periods

/-- The read `series.data[candidate][i]`, absent when the candidate has no
array in the series. -/
def entryAt (series : SourceSeries) (candidate : String) (i : Nat) : Option ℚ :=
  match objGet series.data candidate with
  | none => none
  | some values => arrGet values i

/-- The read `ds[pollster].data[candidate][i]`, absent when the pollster has
no series. -/
def entryOf (ds : PollDataset) (pollster candidate : String) (i : Nat) : Option ℚ :=
  match objGet ds pollster with
  | none => none
  | some series => entryAt series candidate i

/-- The labels of a list with every occurrence after the first removed. -/
def keepFirst : List String → List String
  | [] => []
  | x :: xs => x :: (keepFirst xs).filter fun y => y ≠ x

/-- The period labels of the rows of a pollster, in arrival order. -/
def periodLabels (rows : List NormalizedRow) (pollster : String) : List String :=
  (rows.filter fun r => r.pollster = pollster).map fun r => r.period

/-- The value of the last row of the stream with the given pollster, period
and candidate; absent when the stream has no such row. -/
def lastWrite (rows : List NormalizedRow) (pollster period candidate : String) : Option ℚ :=
  ((rows.filter fun r =>
      r.pollster = pollster ∧ r.period = period ∧ r.candidate = candidate).getLast?).map
    fun r => r.value

/-- The candidate names of the series of a pollster, in the order of the
object; empty when the pollster has no series. -/
def dataKeysOf (ds : PollDataset) (pollster : String) : List String :=
  match objGet ds pollster with
  | none => []
  | some series => objKeys series.data

/-- An array does not end in a hole. -/
def NoTrailingHole (arr : List (Option ℚ)) : Prop := arr.getLast? ≠ some none

/-- Every series is stored under its own name with the colour of that name,
and no candidate array ends in a hole. -/
def Canonical (ds : PollDataset) : Prop :=
  ∀ pollster series, objGet ds pollster = some series →
    series.name = pollster ∧
    series.color = (objGet pollsterColors pollster).getD "#888888" ∧
    ∀ candidate values, objGet series.data candidate = some values → NoTrailingHole values

/-- No series has an own array under the name of an inherited member. -/
def NoMemberKeys (ds : PollDataset) : Prop :=
  ∀ pollster series, objGet ds pollster = some series →
    ∀ c ∈ inheritedMembers, objGet series.data c = none

/-- The dataset has a series for the pollster of the row and, unless the
candidate is named like an inherited member, an array for its candidate. -/
def Saturated (ds : PollDataset) (row : NormalizedRow) : Prop :=
  ∃ series, objGet ds row.pollster = some series ∧
    (row.candidate ∈ inheritedMembers ∨ ∃ values, objGet series.data row.candidate = some values)

/-! ## Scenarios -/

/-- The three rows of the DATUM scenario, as parsed CSV lines. -/
def datumRaw : List RawRow :=
  [⟨some "DATUM", some "M1", some "A", some "10"⟩,
   ⟨some "DATUM", some "M2", some "A", some "12"⟩,
   ⟨some "DATUM", some "M1", some "B", some "8"⟩]

/-- The three rows of the DATUM scenario, validated. -/
def datumRows : List NormalizedRow :=
  [⟨"DATUM", "M1", "A", 10⟩, ⟨"DATUM", "M2", "A", 12⟩, ⟨"DATUM", "M1", "B", 8⟩]

/-- Two candidates polled at the same value by one pollster. -/
def tiedRows : List NormalizedRow :=
  [⟨"DATUM", "M1", "A", 10⟩, ⟨"DATUM", "M1", "B", 10⟩]

/-- A pollster whose only candidate is called `name`, polled in two periods. -/
def labelRows : List NormalizedRow :=
  [⟨"DATUM", "M1", "name", 10⟩, ⟨"DATUM", "M2", "name", 12⟩]

/-- The DATUM scenario with one more candidate, called `name`. -/
def datumWithName : List NormalizedRow :=
  datumRows ++ [⟨"DATUM", "M1", "name", 7⟩]

/-- A candidate called `__proto__`, polled in a period in which candidate `A`
was not. -/
def protoRows : List NormalizedRow :=
  [⟨"DATUM", "M1", "A", 5⟩, ⟨"DATUM", "M2", "__proto__", 77⟩, ⟨"DATUM", "M2", "B", 6⟩]

/-- A candidate called `constructor`. -/
def constructorRows : List NormalizedRow :=
  [⟨"DATUM", "M1", "constructor", 10⟩]

/-- A pollster called `constructor` after a row of `DATUM`. -/
def throwRows : List NormalizedRow :=
  [⟨"DATUM", "M1", "A", 10⟩, ⟨"constructor", "M1", "A", 10⟩]

/-- Two rows of `DATUM`, then a second pollster with a candidate called
`__proto__` in its second period. -/
def crossRows : List NormalizedRow :=
  [⟨"DATUM", "M1", "A", 5⟩, ⟨"DATUM", "M2", "B", 6⟩,
   ⟨"CPI", "M1", "A", 1⟩, ⟨"CPI", "M2", "__proto__", 77⟩]

/-- The DATUM scenario and a second pollster that polled `B` and, at 0, `A`. -/
def twoPollsters : List NormalizedRow :=
  datumRows ++ [⟨"CPI", "M1", "B", 20⟩, ⟨"CPI", "M1", "A", 0⟩]

/-! ## Basic facts about objects and arrays -/

theorem mem_of_objGet {α : Type} {o : List (String × α)} {k : String} {v : α}
    (h : objGet o k = some v) : (k, v) ∈ o := by
  induction o with
  | nil => simp [objGet] at h
  | cons e o ih =>
    obtain ⟨k', v'⟩ := e
    by_cases hk : k' = k
    · simp [objGet, hk] at h
      simp [hk, h]
    · simp [objGet, hk] at h
      exact List.mem_cons_of_mem _ (ih h)

theorem mem_objSet {α : Type} {o : List (String × α)} {k : String} {v : α}
    {e : String × α} (h : e ∈ objSet o k v) : e ∈ o ∨ e = (k, v) := by
  induction o with
  | nil => simpa [objSet] using h
  | cons e' o ih =>
    obtain ⟨k', v'⟩ := e'
    by_cases hk : k' = k
    · simp [objSet, hk] at h
      rcases h with h | h
      · exact Or.inr h
      · exact Or.inl (List.mem_cons_of_mem _ h)
    · simp [objSet, hk] at h
      rcases h with h | h
      · exact Or.inl (by simp [h])
      · rcases ih h with h' | h'
        · exact Or.inl (List.mem_cons_of_mem _ h')
        · exact Or.inr h'

theorem objGet_objSet {α : Type} (o : List (String × α)) (k k' : String) (v : α) :
    objGet (objSet o k v) k' = if k = k' then some v else objGet o k' := by
  induction o with
  | nil => simp [objSet, objGet]
  | cons e o ih =>
    obtain ⟨k₀, v₀⟩ := e
    by_cases hk : k₀ = k
    · subst hk
      by_cases hk' : k₀ = k' <;> simp [objSet, objGet, hk']
    · by_cases hk' : k₀ = k'
      · subst hk'
        have : ¬ k = k₀ := fun h => hk h.symm
        simp [objSet, objGet, hk, this]
      · simp [objSet, objGet, hk, hk', ih]

theorem length_arrSet (arr : List (Option ℚ)) (i : Nat) (v : ℚ) :
    (arrSet arr i v).length = max arr.length (i + 1) := by
  induction arr generalizing i with
  | nil =>
    induction i with
    | zero => simp [arrSet]
    | succ i ih => simp [arrSet, ih]
  | cons x arr ih =>
    cases i with
    | zero => simp [arrSet]
    | succ i => simp [arrSet, ih, Nat.succ_max_succ]

theorem arrGet_arrSet (arr : List (Option ℚ)) (i j : Nat) (v : ℚ) :
    arrGet (arrSet arr i v) j = if j = i then some v else arrGet arr j := by
  induction arr generalizing i j with
  | nil =>
    induction i generalizing j with
    | zero => cases j <;> simp [arrSet, arrGet]
    | succ i ih =>
      cases j with
      | zero => simp [arrSet, arrGet]
      | succ j =>
        have := ih j
        simp only [arrGet, List.get?_eq_getElem?] at this ⊢
        simpa [arrSet] using this
  | cons x arr ih =>
    cases i with
    | zero => cases j <;> simp [arrSet, arrGet]
    | succ i =>
      cases j with
      | zero => simp [arrSet, arrGet]
      | succ j =>
        have := ih i j
        simp only [arrGet, List.get?_eq_getElem?] at this ⊢
        simpa [arrSet] using this

theorem arrGet_of_length_le {arr : List (Option ℚ)} {i : Nat} (h : arr.length ≤ i) :
    arrGet arr i = none := by
  simp [arrGet, List.getElem?_eq_none h]

/-! ## The invariant is kept by every step -/

theorem mem_addPeriod (periods : List String) (period : String) :
    period ∈ addPeriod periods period := by
  unfold addPeriod
  split <;> simp_all

theorem nodup_addPeriod {periods : List String} (period : String) (h : periods.Nodup) :
    (addPeriod periods period).Nodup := by
  unfold addPeriod
  split
  · exact h
  · rename_i hp
    exact List.Nodup.append h (List.nodup_singleton _) (by simpa using hp)

theorem length_le_addPeriod (periods : List String) (period : String) :
    periods.length ≤ (addPeriod periods period).length := by
  unfold addPeriod
  split <;> simp

theorem seriesInv_of_objGet {ds : PollDataset} (h : DatasetInv ds) {k : String}
    {s : SourceSeries} (hs : objGet ds k = some s) : SeriesInv s :=
  h _ (mem_of_objGet hs)

theorem datasetInv_nil : DatasetInv [] := by
  intro e he
  simp at he

theorem seriesInv_seriesOrFresh {ds : PollDataset} (h : DatasetInv ds) (pollster : String) :
    SeriesInv (seriesOrFresh ds pollster) := by
  unfold seriesOrFresh
  cases hg : objGet ds pollster with
  | none => exact ⟨List.nodup_nil, by simp [freshSeries]⟩
  | some s => exact seriesInv_of_objGet h hg

theorem seriesInv_pushPeriod {s : SourceSeries} (h : SeriesInv s) (period : String) :
    SeriesInv (pushPeriod s period) :=
  ⟨nodup_addPeriod _ h.1, fun e he => le_trans (h.2 e he) (length_le_addPeriod _ _)⟩

theorem seriesInv_writeValue {s : SourceSeries} (h : SeriesInv s) (row : NormalizedRow) :
    SeriesInv (writeValue s row) := by
  obtain ⟨hnd, hlen⟩ := h
  refine ⟨nodup_addPeriod _ hnd, ?_⟩
  intro e he
  rcases mem_objSet he with he | he
  · exact le_trans (hlen e he) (length_le_addPeriod _ _)
  · subst he
    simp only [length_arrSet]
    refine max_le ?_ ?_
    · refine le_trans ?_ (length_le_addPeriod _ _)
      cases hg : objGet s.data row.candidate with
      | none => simp
      | some arr => simpa using hlen _ (mem_of_objGet hg)
    · exact List.indexOf_lt_length.2 (mem_addPeriod _ _)

theorem seriesInv_stepSeries {s : SourceSeries} (h : SeriesInv s) (row : NormalizedRow) :
    SeriesInv (stepSeries s row) := by
  unfold stepSeries
  split
  · exact seriesInv_pushPeriod h _
  · exact seriesInv_writeValue h row

theorem datasetInv_advance {ds : PollDataset} (h : DatasetInv ds) (row : NormalizedRow) :
    DatasetInv (advance ds row) := by
  intro e he
  rcases mem_objSet he with he | he
  · exact h e he
  · subst he
    exact seriesInv_stepSeries (seriesInv_seriesOrFresh h _) row

/-! ## What one step does to the periods and to the entries -/

theorem objGet_advance (ds : PollDataset) (row : NormalizedRow) (pollster : String) :
    objGet (advance ds row) pollster =
      if row.pollster = pollster then some (stepSeries (seriesOrFresh ds row.pollster) row)
      else objGet ds pollster := by
  unfold advance
  exact objGet_objSet _ _ _ _

theorem periods_seriesOrFresh (ds : PollDataset) (pollster : String) :
    (seriesOrFresh ds pollster).periods = periodsOf ds pollster := by
  unfold seriesOrFresh periodsOf
  cases objGet ds pollster <;> rfl

theorem periods_stepSeries (series : SourceSeries) (row : NormalizedRow) :
    (stepSeries series row).periods = addPeriod series.periods row.period := by
  unfold stepSeries
  split <;> rfl

theorem entryAt_seriesOrFresh (ds : PollDataset) (pollster candidate : String) (i : Nat) :
    entryAt (seriesOrFresh ds pollster) candidate i = entryOf ds pollster candidate i := by
  unfold seriesOrFresh entryOf
  cases objGet ds pollster <;> simp [entryAt, objGet, freshSeries]

theorem periodsOf_advance (ds : PollDataset) (row : NormalizedRow) (pollster : String) :
    periodsOf (advance ds row) pollster =
      if row.pollster = pollster then addPeriod (periodsOf ds pollster) row.period
      else periodsOf ds pollster := by
  unfold periodsOf
  rw [objGet_advance]
  by_cases h : row.pollster = pollster
  · subst h
    simp only [if_true]
    rw [periods_stepSeries, periods_seriesOrFresh]
    rfl
  · simp [h]

theorem entryAt_writeValue (series : SourceSeries) (row : NormalizedRow)
    (candidate : String) (i : Nat) :
    entryAt (writeValue series row) candidate i =
      if row.candidate = candidate ∧
          i = (addPeriod series.periods row.period).indexOf row.period
      then some row.value else entryAt series candidate i := by
  unfold entryAt writeValue
  simp only [objGet_objSet]
  by_cases hc : row.candidate = candidate
  · subst hc
    simp only [if_true, true_and, arrGet_arrSet]
    by_cases hi : i = (addPeriod series.periods row.period).indexOf row.period
    · simp [hi]
    · simp only [hi, if_false]
      cases objGet series.data row.candidate <;> simp [arrGet]
  · simp [hc]

theorem entryAt_stepSeries (series : SourceSeries) (row : NormalizedRow)
    (candidate : String) (i : Nat) :
    entryAt (stepSeries series row) candidate i =
      if row.candidate ∉ inheritedMembers ∧ row.candidate = candidate ∧
          i = (addPeriod series.periods row.period).indexOf row.period
      then some row.value else entryAt series candidate i := by
  unfold stepSeries
  by_cases hm : row.candidate ∈ inheritedMembers
  · simp only [hm, if_true, not_true_eq_false, false_and, if_false]
    rfl
  · simp only [hm, if_false, not_false_eq_true, true_and]
    exact entryAt_writeValue series row candidate i

theorem entryOf_advance (ds : PollDataset) (row : NormalizedRow)
    (pollster candidate : String) (i : Nat) :
    entryOf (advance ds row) pollster candidate i =
      if row.candidate ∉ inheritedMembers ∧ row.pollster = pollster ∧
          row.candidate = candidate ∧
          i = (addPeriod (periodsOf ds pollster) row.period).indexOf row.period
      then some row.value else entryOf ds pollster candidate i := by
  unfold entryOf
  rw [objGet_advance]
  by_cases h : row.pollster = pollster
  · subst h
    simp only [if_true, true_and]
    rw [entryAt_stepSeries, periods_seriesOrFresh, entryAt_seriesOrFresh]
    rfl
  · simp [h]

theorem entryOf_eq_none_of_le {ds : PollDataset} (h : DatasetInv ds)
    (pollster candidate : String) {i : Nat} (hi : (periodsOf ds pollster).length ≤ i) :
    entryOf ds pollster candidate i = none := by
  unfold entryOf
  unfold periodsOf at hi
  cases hg : objGet ds pollster with
  | none => rfl
  | some series =>
    rw [hg] at hi
    show entryAt series candidate i = none
    unfold entryAt
    cases hc : objGet series.data candidate with
    | none => rfl
    | some values =>
      have := (seriesInv_of_objGet h hg).2 _ (mem_of_objGet hc)
      exact arrGet_of_length_le (le_trans this hi)

theorem datasetInv_pureFold (rows : List NormalizedRow) : DatasetInv (pureFold rows) := by
  unfold pureFold
  induction rows using List.reverseRecOn with
  | nil => exact datasetInv_nil
  | append_singleton rows row ih =>
    rw [List.foldl_append]
    exact datasetInv_advance ih row

theorem pureFold_append_singleton (rows : List NormalizedRow) (row : NormalizedRow) :
    pureFold (rows ++ [row]) = advance (pureFold rows) row := by
  simp [pureFold, List.foldl_append]

/-! ## First-seen order of the periods -/

theorem foldl_addPeriod (labels acc : List String) :
    labels.foldl addPeriod acc = acc ++ (keepFirst labels).filter fun y => y ∉ acc := by
  induction labels generalizing acc with
  | nil => simp [keepFirst]
  | cons x xs ih =>
    rw [List.foldl_cons, ih]
    unfold addPeriod
    by_cases hx : x ∈ acc
    · simp only [hx, if_true, keepFirst]
      congr 1
      rw [List.filter_cons]
      simp only [hx, not_true_eq_false, decide_False, Bool.false_eq_true, if_false,
        List.filter_filter]
      apply List.filter_congr
      intro y _
      by_cases hy : y ∈ acc
      · simp [hy]
      · have : y ≠ x := fun h => hy (h ▸ hx)
        simp [hy, this]
    · simp only [hx, if_false, keepFirst]
      rw [List.filter_cons]
      simp only [hx, not_false_eq_true, decide_True, if_true, List.filter_filter,
        List.append_assoc, List.singleton_append]
      congr 2
      apply List.filter_congr
      intro y _
      by_cases hy : y ∈ acc <;> by_cases hyx : y = x <;> simp [hy, hyx]

theorem periodsOf_pureFold (rows : List NormalizedRow) (pollster : String) :
    periodsOf (pureFold rows) pollster = (periodLabels rows pollster).foldl addPeriod [] := by
  induction rows using List.reverseRecOn with
  | nil => simp [pureFold, periodsOf, objGet, periodLabels]
  | append_singleton rows row ih =>
    rw [pureFold_append_singleton, periodsOf_advance, ih]
    unfold periodLabels
    by_cases h : row.pollster = pollster
    · simp [h, List.filter_append, List.foldl_append]
    · simp [h, List.filter_append]

theorem objGet_pureFold_isSome (rows : List NormalizedRow) (pollster : String)
    (h : ∃ r ∈ rows, r.pollster = pollster) : (objGet (pureFold rows) pollster).isSome := by
  induction rows using List.reverseRecOn with
  | nil => simp at h
  | append_singleton rows row ih =>
    rw [pureFold_append_singleton, objGet_advance]
    by_cases hp : row.pollster = pollster
    · simp [hp]
    · simp only [hp, if_false]
      apply ih
      obtain ⟨r, hr, hrp⟩ := h
      rcases List.mem_append.1 hr with hr | hr
      · exact ⟨r, hr, hrp⟩
      · simp at hr
        subst hr
        exact absurd hrp hp

/-! ## Last write wins -/

theorem lastWrite_append_singleton (rows : List NormalizedRow) (row : NormalizedRow)
    (pollster period candidate : String) :
    lastWrite (rows ++ [row]) pollster period candidate =
      if row.pollster = pollster ∧ row.period = period ∧ row.candidate = candidate
      then some row.value else lastWrite rows pollster period candidate := by
  unfold lastWrite
  rw [List.filter_append]
  by_cases h : row.pollster = pollster ∧ row.period = period ∧ row.candidate = candidate
  · simp [List.filter_cons, h]
  · simp [List.filter_cons, h]

theorem period_mem_periodsOf (rows : List NormalizedRow) (r : NormalizedRow) (hr : r ∈ rows) :
    r.period ∈ periodsOf (pureFold rows) r.pollster := by
  induction rows using List.reverseRecOn with
  | nil => simp at hr
  | append_singleton rows row ih =>
    rw [pureFold_append_singleton, periodsOf_advance]
    rcases List.mem_append.1 hr with hr | hr
    · have := ih hr
      by_cases hp : row.pollster = r.pollster
      · simp only [hp, if_true]
        unfold addPeriod
        split
        · exact this
        · exact List.mem_append_left _ this
      · simpa [hp] using this
    · simp at hr
      subst hr
      simpa using mem_addPeriod _ _

theorem ownRows_append_singleton (rows : List NormalizedRow) (row : NormalizedRow) :
    ownRows (rows ++ [row]) =
      if row.candidate ∈ inheritedMembers then ownRows rows else ownRows rows ++ [row] := by
  unfold ownRows
  rw [List.filter_append]
  by_cases hm : row.candidate ∈ inheritedMembers
  · simp [List.filter_cons, hm]
  · simp [List.filter_cons, hm]

theorem lastWrite_ownRows_append_singleton (rows : List NormalizedRow) (row : NormalizedRow)
    (pollster period candidate : String) :
    lastWrite (ownRows (rows ++ [row])) pollster period candidate =
      if row.candidate ∉ inheritedMembers ∧ row.pollster = pollster ∧ row.period = period ∧
          row.candidate = candidate
      then some row.value else lastWrite (ownRows rows) pollster period candidate := by
  rw [ownRows_append_singleton]
  by_cases hm : row.candidate ∈ inheritedMembers
  · simp [hm]
  · simp only [hm, if_false, not_false_eq_true, true_and]
    exact lastWrite_append_singleton _ _ _ _ _

theorem lastWrite_ownRows_eq_none_of_not_mem (rows : List NormalizedRow)
    (pollster period candidate : String)
    (h : period ∉ periodsOf (pureFold rows) pollster) :
    lastWrite (ownRows rows) pollster period candidate = none := by
  unfold lastWrite
  have : ((ownRows rows).filter fun r =>
      r.pollster = pollster ∧ r.period = period ∧ r.candidate = candidate) = [] := by
    rw [List.filter_eq_nil_iff]
    intro r hr
    simp only [decide_eq_true_eq, not_and]
    intro hp ht
    have hr' : r ∈ rows := (List.mem_filter.1 hr).1
    exact absurd (hp ▸ ht ▸ period_mem_periodsOf rows r hr') h
  rw [this]
  rfl

theorem getElem?_addPeriod_cases {periods : List String} {x period : String} {i : Nat}
    (h : (addPeriod periods x)[i]? = some period) :
    periods[i]? = some period ∨ (periods.length ≤ i ∧ period = x ∧ x ∉ periods) := by
  unfold addPeriod at h
  by_cases hmem : x ∈ periods
  · simp only [hmem, if_true] at h
    exact Or.inl h
  · simp only [hmem, if_false] at h
    by_cases hlt : i < periods.length
    · rw [List.getElem?_append_left hlt] at h
      exact Or.inl h
    · push_neg at hlt
      rw [List.getElem?_append_right hlt] at h
      have := List.getElem?_mem h
      simp at this
      exact Or.inr ⟨hlt, this, hmem⟩

theorem nodup_periodsOf {ds : PollDataset} (h : DatasetInv ds) (pollster : String) :
    (periodsOf ds pollster).Nodup := by
  unfold periodsOf
  cases hg : objGet ds pollster with
  | none => exact List.nodup_nil
  | some series => exact (seriesInv_of_objGet h hg).1

theorem indexOf_eq_of_getElem? {l : List String} (hl : l.Nodup) {i : Nat} {x : String}
    (h : l[i]? = some x) : l.indexOf x = i := by
  obtain ⟨hi, hx⟩ := List.getElem?_eq_some_iff.1 h
  subst hx
  exact List.indexOf_getElem hl i hi

/-- In a fold without a throw, the entry at the index of a period is the value
of the last row with that pollster, period and candidate among the rows that
write into own arrays. -/
theorem entryOf_pureFold (rows : List NormalizedRow) (pollster candidate : String)
    (i : Nat) (period : String)
    (h : (periodsOf (pureFold rows) pollster)[i]? = some period) :
    entryOf (pureFold rows) pollster candidate i =
      lastWrite (ownRows rows) pollster period candidate := by
  induction rows using List.reverseRecOn generalizing i period with
  | nil => simp [pureFold, periodsOf, objGet] at h
  | append_singleton rows row ih =>
    have hinv := datasetInv_pureFold rows
    have hinv' := datasetInv_pureFold (rows ++ [row])
    have hnd' := nodup_periodsOf hinv' pollster
    rw [pureFold_append_singleton] at h hnd' ⊢
    rw [entryOf_advance, lastWrite_ownRows_append_singleton]
    rw [periodsOf_advance] at h hnd'
    by_cases hp : row.pollster = pollster
    · simp only [hp, if_true] at h hnd'
      have hiff : i = (addPeriod (periodsOf (pureFold rows) pollster) row.period).indexOf
          row.period ↔ row.period = period := by
        constructor
        · intro hi
          have hlt : i < (addPeriod (periodsOf (pureFold rows) pollster) row.period).length :=
            (List.getElem?_eq_some_iff.1 h).1
          have := (List.getElem?_eq_some_iff.1 h).2
          rw [← this]
          simp only [hi]
          exact (List.indexOf_get (hi ▸ hlt)).symm
        · intro ht
          subst ht
          exact (indexOf_eq_of_getElem? hnd' h).symm
      have hold : entryOf (pureFold rows) pollster candidate i =
          lastWrite (ownRows rows) pollster period candidate := by
        rcases getElem?_addPeriod_cases h with h' | ⟨hlen, hper, hnot⟩
        · exact ih i period h'
        · subst hper
          rw [entryOf_eq_none_of_le hinv _ _ hlen,
            lastWrite_ownRows_eq_none_of_not_mem rows _ _ _ hnot]
      by_cases hC : row.candidate ∉ inheritedMembers ∧ row.period = period ∧
          row.candidate = candidate
      · rw [if_pos ⟨hC.1, hp, hC.2.2, hiff.2 hC.2.1⟩, if_pos ⟨hC.1, hp, hC.2.1, hC.2.2⟩]
      · rw [if_neg (fun hh => hC ⟨hh.1, hiff.1 hh.2.2.2, hh.2.2.1⟩),
          if_neg (fun hh => hC ⟨hh.1, hh.2.2.1, hh.2.2.2⟩)]
        exact hold
    · simp only [hp, if_false] at h
      rw [if_neg (fun hh => hp hh.2.1), if_neg (fun hh => hp hh.2.1)]
      exact ih i period h

/-! ## Objects keep one property per name -/

theorem objKeys_objSet_of_mem {α : Type} (o : List (String × α)) (k : String) (v : α)
    (h : k ∈ objKeys o) : objKeys (objSet o k v) = objKeys o := by
  induction o with
  | nil => simp [objKeys] at h
  | cons e o ih =>
    obtain ⟨k', v'⟩ := e
    by_cases hk : k' = k
    · simp [objSet, objKeys, hk]
    · have hmem : k ∈ objKeys o := by
        simp only [objKeys, List.map_cons, List.mem_cons] at h
        rcases h with h | h
        · exact absurd h.symm hk
        · exact h
      have := ih hmem
      simp only [objKeys] at this
      simp [objSet, objKeys, hk, this]

theorem objKeys_objSet_of_not_mem {α : Type} (o : List (String × α)) (k : String) (v : α)
    (h : k ∉ objKeys o) : objKeys (objSet o k v) = objKeys o ++ [k] := by
  induction o with
  | nil => simp [objSet, objKeys]
  | cons e o ih =>
    obtain ⟨k', v'⟩ := e
    simp only [objKeys, List.map_cons, List.mem_cons, not_or] at h
    have hk : ¬ k' = k := fun hh => h.1 hh.symm
    have := ih h.2
    simp only [objKeys] at this
    simp [objSet, objKeys, hk, this]

theorem nodup_objKeys_objSet {α : Type} (o : List (String × α)) (k : String) (v : α)
    (h : (objKeys o).Nodup) : (objKeys (objSet o k v)).Nodup := by
  by_cases hk : k ∈ objKeys o
  · rw [objKeys_objSet_of_mem o k v hk]
    exact h
  · rw [objKeys_objSet_of_not_mem o k v hk]
    exact List.Nodup.append h (List.nodup_singleton _) (by simpa using hk)

theorem objGet_of_mem {α : Type} {o : List (String × α)} (h : (objKeys o).Nodup)
    {k : String} {v : α} (hm : (k, v) ∈ o) : objGet o k = some v := by
  induction o with
  | nil => simp at hm
  | cons e o ih =>
    obtain ⟨k', v'⟩ := e
    simp only [objKeys, List.map_cons, List.nodup_cons, List.mem_map, not_exists, not_and] at h
    simp only [List.mem_cons, Prod.mk.injEq] at hm
    rcases hm with hm | hm
    · simp [objGet, hm.1, hm.2]
    · have hk : ¬ k' = k := fun hh => h.1 (k, v) hm hh.symm
      simp only [objGet, hk, if_false]
      exact ih h.2 hm

theorem objGet_eq_none_of_not_mem {α : Type} {o : List (String × α)} {k : String}
    (h : k ∉ objKeys o) : objGet o k = none := by
  induction o with
  | nil => rfl
  | cons e o ih =>
    obtain ⟨k', v'⟩ := e
    simp only [objKeys, List.map_cons, List.mem_cons, not_or] at h
    have hk : ¬ k' = k := fun hh => h.1 hh.symm
    simp only [objGet, hk, if_false]
    exact ih h.2

theorem nodup_objKeys_seriesOrFresh {ds : PollDataset} (h : WellFormed ds) (pollster : String) :
    (objKeys (seriesOrFresh ds pollster).data).Nodup := by
  unfold seriesOrFresh
  cases hg : objGet ds pollster with
  | none => simp [objKeys, freshSeries]
  | some s => exact h.2 _ (mem_of_objGet hg)

theorem wellFormed_advance {ds : PollDataset} (h : WellFormed ds) (row : NormalizedRow) :
    WellFormed (advance ds row) := by
  refine ⟨nodup_objKeys_objSet _ _ _ h.1, ?_⟩
  intro e he
  rcases mem_objSet he with he | he
  · exact h.2 e he
  · subst he
    show (objKeys (stepSeries (seriesOrFresh ds row.pollster) row).data).Nodup
    unfold stepSeries
    split
    · exact nodup_objKeys_seriesOrFresh h _
    · exact nodup_objKeys_objSet _ _ _ (nodup_objKeys_seriesOrFresh h _)

theorem wellFormed_pureFold (rows : List NormalizedRow) : WellFormed (pureFold rows) := by
  induction rows using List.reverseRecOn with
  | nil => exact ⟨by simp [pureFold, objKeys], by simp [pureFold]⟩
  | append_singleton rows row ih =>
    rw [pureFold_append_singleton]
    exact wellFormed_advance ih row

/-! ## The ranking -/

theorem validValues_eq_reverse (values : List (Option ℚ)) :
    validValues values = (presentLatestFirst values).reverse := by
  simp [validValues, presentLatestFirst]

theorem rankingItem_candidate (candidate : String) (values : List (Option ℚ)) :
    (rankingItem candidate values).candidate = candidate := rfl

theorem rankingItem_value (candidate : String) (values : List (Option ℚ)) :
    (rankingItem candidate values).value = (presentLatestFirst values).head? := by
  unfold rankingItem
  simp only [validValues_eq_reverse]
  cases h : presentLatestFirst values with
  | nil => simp
  | cons l rest => simp

theorem getElem?_reverse_last (l : List ℚ) :
    l.reverse[l.reverse.length - 1]? = l.head? := by
  rw [← List.getLast?_eq_getElem?, List.getLast?_reverse]

theorem getElem?_reverse_prev (l : List ℚ) (h : 1 < l.length) :
    l.reverse[l.reverse.length - 2]? = l[1]? := by
  rw [List.getElem?_reverse (by simp; omega)]
  simp only [List.length_reverse]
  congr 1
  omega

theorem rankingItem_spec (candidate : String) (values : List (Option ℚ))
    (h : (rankingItem candidate values).value.isSome) :
    RankingSpec values (rankingItem candidate values) := by
  rw [rankingItem_value] at h
  unfold RankingSpec rankingItem
  simp only [validValues_eq_reverse]
  cases hp : presentLatestFirst values with
  | nil => simp [hp] at h
  | cons l rest =>
    cases rest with
    | nil => simp
    | cons q rest =>
      rw [getElem?_reverse_last, getElem?_reverse_prev _ (by simp)]
      simp

theorem mem_rankingData {pd : PollDataset} {pollster : String} {series : SourceSeries}
    (hs : objGet pd pollster = some series) (item : RankingItem) :
    item ∈ rankingData (some pd) pollster ↔
      item ∈ (series.data.map fun e => rankingItem e.1 e.2).filter fun item =>
        item.value.isSome := by
  simp only [rankingData, hs, jsSort]
  exact (List.perm_insertionSort _ _).mem_iff

theorem countP_ranking_eq_zero (o : List (String × List (Option ℚ))) (candidate : String)
    (h : candidate ∉ objKeys o) :
    ((o.map fun e => rankingItem e.1 e.2).filter fun item => item.value.isSome).countP
      (fun item => item.candidate = candidate) = 0 := by
  rw [List.countP_eq_zero]
  intro item hitem
  simp only [List.mem_filter, List.mem_map] at hitem
  obtain ⟨⟨e, he, rfl⟩, _⟩ := hitem
  simp only [rankingItem_candidate, decide_eq_true_eq]
  intro hc
  exact h (hc ▸ List.mem_map_of_mem Prod.fst he)

theorem countP_ranking_eq_one (o : List (String × List (Option ℚ))) (hk : (objKeys o).Nodup)
    (candidate : String) (values : List (Option ℚ)) (hg : objGet o candidate = some values)
    (hv : (rankingItem candidate values).value.isSome) :
    ((o.map fun e => rankingItem e.1 e.2).filter fun item => item.value.isSome).countP
      (fun item => item.candidate = candidate) = 1 := by
  induction o with
  | nil => simp [objGet] at hg
  | cons e o ih =>
    obtain ⟨k', v'⟩ := e
    simp only [objKeys, List.map_cons, List.nodup_cons] at hk
    by_cases hkc : k' = candidate
    · subst hkc
      simp only [objGet, if_true, Option.some.injEq] at hg
      subst hg
      have h0 := countP_ranking_eq_zero o k' hk.1
      simp only [List.map_cons, List.filter_cons, hv, if_true, List.countP_cons,
        rankingItem_candidate, decide_True, h0]
    · simp only [objGet, hkc, if_false] at hg
      have h1 := ih hk.2 hg
      simp only [List.map_cons, List.filter_cons]
      split
      · simp only [List.countP_cons, rankingItem_candidate, hkc, decide_False, h1]
        simp
      · exact h1

theorem descending_rankingData (pollData : Option PollDataset) (pollster : String) :
    Descending (rankingData pollData pollster) := by
  unfold Descending
  cases pollData with
  | none => simp [rankingData]
  | some pd =>
    cases hs : objGet pd pollster with
    | none => simp [rankingData, hs]
    | some series =>
      simp only [rankingData, hs, jsSort]
      apply List.Pairwise.chain'
      have htotal : IsTotal RankingItem
          (fun a b => toNumber b.value - toNumber a.value ≤ 0) :=
        ⟨fun a b => by
          rcases le_total (toNumber a.value) (toNumber b.value) with h | h
          · exact Or.inr (sub_nonpos.2 h)
          · exact Or.inl (sub_nonpos.2 h)⟩
      have htrans : IsTrans RankingItem
          (fun a b => toNumber b.value - toNumber a.value ≤ 0) :=
        ⟨fun a b c hab hbc => sub_nonpos.2 (le_trans (sub_nonpos.1 hbc) (sub_nonpos.1 hab))⟩
      have hsorted := List.sorted_insertionSort
        (fun a b : RankingItem => toNumber b.value - toNumber a.value ≤ 0)
        ((series.data.map fun e => rankingItem e.1 e.2).filter fun item => item.value.isSome)
      exact hsorted.imp fun h => sub_nonpos.1 h

/-! ## The chart points -/

theorem chartData_of_absent (pd : PollDataset) (pollster : String) (sel : List String)
    (h : objGet pd pollster = none) : chartData (some pd) pollster sel = [] := by
  simp [chartData, h]

theorem length_chartData (pd : PollDataset) (pollster : String) (sel : List String)
    (series : SourceSeries) (h : objGet pd pollster = some series) :
    (chartData (some pd) pollster sel).length = series.periods.length := by
  simp [chartData, h]

theorem getElem?_chartData (pd : PollDataset) (pollster : String) (sel : List String)
    (series : SourceSeries) (h : objGet pd pollster = some series) (i : Nat) :
    (chartData (some pd) pollster sel)[i]? =
      series.periods[i]?.map fun period => chartPoint series sel period i := by
  simp only [chartData, Option.bind, h, List.getElem?_map, List.getElem?_enum]
  cases series.periods[i]? <;> rfl

theorem chartPoint_append_singleton (data : SourceSeries) (sel : List String)
    (candidate period : String) (idx : Nat) :
    chartPoint data (sel ++ [candidate]) period idx =
      match objGet data.data candidate with
      | some values =>
        objSet (chartPoint data sel period idx) candidate (JSVal.ofEntry (arrGet values idx))
      | none => chartPoint data sel period idx := by
  simp [chartPoint, List.foldl_append]

/-- What a point holds under every name: the array read of a selected
candidate of the series, and otherwise the period under `name` and nothing
elsewhere. -/
theorem objGet_chartPoint (data : SourceSeries) (sel : List String) (period : String)
    (idx : Nat) (k : String) :
    objGet (chartPoint data sel period idx) k =
      match (if k ∈ sel then objGet data.data k else none) with
      | some values => some (JSVal.ofEntry (arrGet values idx))
      | none => if k = "name" then some (JSVal.str period) else none := by
  induction sel using List.reverseRecOn with
  | nil =>
    by_cases hk : k = "name"
    · subst hk
      simp [chartPoint, objGet]
    · have : ¬ "name" = k := fun h => hk h.symm
      simp [chartPoint, objGet, hk, this]
  | append_singleton sel c ih =>
    rw [chartPoint_append_singleton]
    cases hc : objGet data.data c with
    | none =>
      simp only [ih]
      by_cases hkc : k = c
      · subst hkc
        simp [hc]
      · simp [hkc]
    | some values =>
      simp only [objGet_objSet, ih]
      by_cases hkc : c = k
      · subst hkc
        simp [hc]
      · have : ¬ k = c := fun h => hkc h.symm
        simp [hkc, this]

/-! ## The comparison rows -/

theorem lastOrNull_eq_storedLastValue (values : Option (List (Option ℚ))) :
    lastOrNull values = storedLastValue values := by
  cases values with
  | none => rfl
  | some vs =>
    simp only [lastOrNull, storedLastValue, Option.map, validValues_eq_reverse]
    cases hp : presentLatestFirst vs with
    | nil => simp
    | cons l rest =>
      rw [getElem?_reverse_last]
      simp [JSVal.ofEntry]

theorem storedLastValue_num_or_null (values : Option (List (Option ℚ))) :
    (∃ q, storedLastValue values = JSVal.num q) ∨ storedLastValue values = JSVal.null := by
  cases values with
  | none => exact Or.inr rfl
  | some vs =>
    simp only [storedLastValue]
    cases presentLatestFirst vs with
    | nil => exact Or.inr rfl
    | cons l rest => exact Or.inl ⟨l, rfl⟩

theorem comparisonRow_append_singleton (pd : PollDataset) (e : String × SourceSeries)
    (candidate : String) :
    comparisonRow (pd ++ [e]) candidate =
      objSet (comparisonRow pd candidate) e.1 (lastOrNull (objGet e.2.data candidate)) := by
  simp [comparisonRow, List.foldl_append]

theorem objGet_append_singleton {α : Type} (o : List (String × α)) (e : String × α)
    (k : String) :
    objGet (o ++ [e]) k = match objGet o k with
      | some v => some v
      | none => if e.1 = k then some e.2 else none := by
  induction o with
  | nil =>
    obtain ⟨k', v'⟩ := e
    simp [objGet]
  | cons e' o ih =>
    obtain ⟨k', v'⟩ := e'
    by_cases hk : k' = k
    · simp [objGet, hk]
    · simp [objGet, hk, ih]

/-- Under the key of a pollster a row holds the last value of the candidate in
the series of that pollster. -/
theorem objGet_comparisonRow (pd : PollDataset) (hk : (objKeys pd).Nodup)
    (candidate pollster : String) (series : SourceSeries)
    (hs : objGet pd pollster = some series) :
    objGet (comparisonRow pd candidate) pollster =
      some (lastOrNull (objGet series.data candidate)) := by
  induction pd using List.reverseRecOn with
  | nil => simp [objGet] at hs
  | append_singleton pd e ih =>
    rw [comparisonRow_append_singleton, objGet_objSet]
    simp only [objKeys, List.map_append, List.map_cons, List.map_nil] at hk
    rw [objGet_append_singleton] at hs
    by_cases hek : e.1 = pollster
    · have hnot : pollster ∉ objKeys pd := by
        intro hmem
        have := (List.nodup_append.1 hk).2.2
        exact this hmem (by simp [hek])
      rw [objGet_eq_none_of_not_mem hnot] at hs
      simp only [hek, if_true, Option.some.injEq] at hs
      simp [hek, hs]
    · simp only [hek, if_false] at hs ⊢
      cases hg : objGet pd pollster with
      | none => simp [hg] at hs
      | some s' =>
        rw [hg] at hs
        simp only [Option.some.injEq] at hs
        subst hs
        exact ih (List.nodup_append.1 hk).1 hg

/-- Under every pollster key a row holds a number or `null`. -/
theorem objRead_comparisonRow (pd : PollDataset) (candidate k : String)
    (hmem : k ∈ objKeys pd) :
    (∃ q, objGet (comparisonRow pd candidate) k = some (JSVal.num q)) ∨
      objGet (comparisonRow pd candidate) k = some JSVal.null := by
  induction pd using List.reverseRecOn with
  | nil => simp [objKeys] at hmem
  | append_singleton pd e ih =>
    rw [comparisonRow_append_singleton, objGet_objSet]
    by_cases hek : e.1 = k
    · simp only [hek, if_true, lastOrNull_eq_storedLastValue, Option.some.injEq]
      exact storedLastValue_num_or_null _
    · simp only [hek, if_false]
      apply ih
      simp only [objKeys, List.map_append, List.map_cons, List.map_nil, List.mem_append,
        List.mem_singleton] at hmem
      rcases hmem with hmem | hmem
      · exact hmem
      · exact absurd hmem.symm hek

theorem filter_notNull_map_toNumber (row : JSObject) (keys : List String)
    (h : ∀ k ∈ keys, (∃ q, objGet row k = some (JSVal.num q)) ∨
      objGet row k = some JSVal.null) :
    ((keys.map fun k => objRead row k).filter JSVal.notNull).map JSVal.toNumber =
      keys.filterMap fun k =>
        match objGet row k with
        | some (JSVal.num q) => some q
        | _ => none := by
  induction keys with
  | nil => rfl
  | cons k keys ih =>
    have ih' := ih fun k' hk' => h k' (List.mem_cons_of_mem _ hk')
    rcases h k (List.mem_cons_self _ _) with ⟨q, hq⟩ | hn
    · simp only [List.map_cons, objRead, hq, Option.getD_some, List.filter_cons,
        JSVal.notNull, if_true, JSVal.toNumber, List.filterMap_cons]
      rw [← ih']
      rfl
    · simp only [List.map_cons, objRead, hn, Option.getD_some, List.filter_cons,
        JSVal.notNull, List.filterMap_cons]
      rw [← ih']
      rfl

theorem rowAverage_comparisonRow (pd : PollDataset) (candidate : String) :
    rowAverage pd (comparisonRow pd candidate) = rowMean pd (comparisonRow pd candidate) := by
  have h := filter_notNull_map_toNumber (comparisonRow pd candidate) (objKeys pd)
    (fun k hk => objRead_comparisonRow pd candidate k hk)
  unfold rowAverage rowMean presentLastValues
  simp only
  rw [← h]
  rw [← List.foldl_map, ← List.sum_eq_foldl, List.length_map]
  by_cases hnil : ((objKeys pd).map fun k => objRead (comparisonRow pd candidate) k).filter
      JSVal.notNull = []
  · simp [hnil]
  · have hpos : 0 < (((objKeys pd).map fun k =>
        objRead (comparisonRow pd candidate) k).filter JSVal.notNull).length :=
      List.length_pos.2 hnil
    have hne : ¬ (((objKeys pd).map fun k =>
        objRead (comparisonRow pd candidate) k).filter JSVal.notNull).map JSVal.toNumber = [] := by
      simpa using hnil
    rw [if_pos hpos, if_neg hne]

theorem perm_comparisonData (pd : PollDataset) (sel : List String) :
    (comparisonData (some pd) sel).Perm (sel.map fun candidate => comparisonRow pd candidate) := by
  simp only [comparisonData, jsSort]
  exact List.perm_insertionSort _ _

theorem sorted_comparisonData (pd : PollDataset) (sel : List String) :
    (comparisonData (some pd) sel).Pairwise fun a b => rowMean pd b ≤ rowMean pd a := by
  have htotal : IsTotal JSObject (fun a b => rowAverage pd b - rowAverage pd a ≤ 0) :=
    ⟨fun a b => by
      rcases le_total (rowAverage pd a) (rowAverage pd b) with h | h
      · exact Or.inr (sub_nonpos.2 h)
      · exact Or.inl (sub_nonpos.2 h)⟩
  have htrans : IsTrans JSObject (fun a b => rowAverage pd b - rowAverage pd a ≤ 0) :=
    ⟨fun a b c hab hbc => sub_nonpos.2 (le_trans (sub_nonpos.1 hbc) (sub_nonpos.1 hab))⟩
  have hsorted := List.sorted_insertionSort
    (fun a b : JSObject => rowAverage pd b - rowAverage pd a ≤ 0)
    (sel.map fun candidate => comparisonRow pd candidate)
  have hmem : ∀ row ∈ comparisonData (some pd) sel, rowAverage pd row = rowMean pd row := by
    intro row hrow
    have := (perm_comparisonData pd sel).mem_iff.1 hrow
    simp only [List.mem_map] at this
    obtain ⟨c, _, rfl⟩ := this
    exact rowAverage_comparisonRow pd c
  simp only [comparisonData, jsSort] at hmem ⊢
  refine List.Pairwise.imp_of_mem ?_ hsorted
  intro a b ha hb hab
  rw [← hmem a ha, ← hmem b hb]
  exact sub_nonpos.1 hab

/-! ## Equal objects and equal arrays -/

theorem objKeys_objSet {α : Type} (o : List (String × α)) (k : String) (v : α) :
    objKeys (objSet o k v) = addPeriod (objKeys o) k := by
  unfold addPeriod
  by_cases hk : k ∈ objKeys o
  · rw [objKeys_objSet_of_mem o k v hk, if_pos hk]
  · rw [objKeys_objSet_of_not_mem o k v hk, if_neg hk]

theorem objGet_isSome_of_mem {α : Type} {o : List (String × α)} {k : String}
    (h : k ∈ objKeys o) : ∃ v, objGet o k = some v := by
  induction o with
  | nil => simp [objKeys] at h
  | cons e o ih =>
    obtain ⟨k', v'⟩ := e
    by_cases hk : k' = k
    · exact ⟨v', by simp [objGet, hk]⟩
    · simp only [objKeys, List.map_cons, List.mem_cons] at h
      rcases h with h | h
      · exact absurd h.symm hk
      · obtain ⟨v, hv⟩ := ih h
        exact ⟨v, by simp [objGet, hk, hv]⟩

/-- Two objects with the same property names in the same order and the same
value under every name are equal. -/
theorem obj_ext {α : Type} {o₁ o₂ : List (String × α)} (hnd : (objKeys o₁).Nodup)
    (hkeys : objKeys o₁ = objKeys o₂) (hget : ∀ k, objGet o₁ k = objGet o₂ k) : o₁ = o₂ := by
  induction o₁ generalizing o₂ with
  | nil =>
    cases o₂ with
    | nil => rfl
    | cons e o₂ => simp [objKeys] at hkeys
  | cons e₁ o₁ ih =>
    cases o₂ with
    | nil => simp [objKeys] at hkeys
    | cons e₂ o₂ =>
      obtain ⟨k₁, v₁⟩ := e₁
      obtain ⟨k₂, v₂⟩ := e₂
      simp only [objKeys, List.map_cons, List.cons.injEq] at hkeys
      obtain ⟨hk, hrest⟩ := hkeys
      subst hk
      simp only [objKeys, List.map_cons, List.nodup_cons] at hnd
      have hv : v₁ = v₂ := by
        have := hget k₁
        simpa [objGet] using this
      subst hv
      have htail : o₁ = o₂ := by
        apply ih hnd.2 hrest
        intro k
        by_cases hkk : k₁ = k
        · subst hkk
          rw [objGet_eq_none_of_not_mem hnd.1,
            objGet_eq_none_of_not_mem (by
              have h := hnd.1
              simp only [objKeys] at hrest ⊢
              rwa [← hrest])]
        · have := hget k
          simpa [objGet, hkk] using this
      rw [htail]

theorem noTrailingHole_nil : NoTrailingHole [] := by
  simp [NoTrailingHole]

theorem noTrailingHole_cons_iff (x : Option ℚ) {arr : List (Option ℚ)} (h : arr ≠ []) :
    NoTrailingHole (x :: arr) ↔ NoTrailingHole arr := by
  obtain ⟨y, ys, rfl⟩ := List.exists_cons_of_ne_nil h
  simp [NoTrailingHole, List.getLast?_cons_cons]

theorem arrSet_ne_nil (arr : List (Option ℚ)) (i : Nat) (v : ℚ) : arrSet arr i v ≠ [] := by
  cases arr <;> cases i <;> simp [arrSet]

theorem noTrailingHole_arrSet (arr : List (Option ℚ)) (i : Nat) (v : ℚ)
    (h : NoTrailingHole arr) : NoTrailingHole (arrSet arr i v) := by
  induction arr generalizing i with
  | nil =>
    induction i with
    | zero => simp [arrSet, NoTrailingHole]
    | succ i ih =>
      simp only [arrSet]
      exact (noTrailingHole_cons_iff _ (arrSet_ne_nil _ _ _)).2 ih
  | cons x arr ih =>
    have harr : NoTrailingHole arr := by
      by_cases hnil : arr = []
      · rw [hnil]
        exact noTrailingHole_nil
      · exact (noTrailingHole_cons_iff x hnil).1 h
    cases i with
    | zero =>
      simp only [arrSet]
      by_cases hnil : arr = []
      · simp [hnil, NoTrailingHole]
      · exact (noTrailingHole_cons_iff _ hnil).2 harr
    | succ i =>
      simp only [arrSet]
      exact (noTrailingHole_cons_iff _ (arrSet_ne_nil _ _ _)).2 (ih i harr)

theorem length_le_of_arrGet_eq {a b : List (Option ℚ)} (ha : NoTrailingHole a)
    (h : ∀ i, arrGet a i = arrGet b i) : a.length ≤ b.length := by
  by_contra hlt
  push_neg at hlt
  have hpos : 0 < a.length := by omega
  have hlast : a.getLast? = a[a.length - 1]? := List.getLast?_eq_getElem? a
  have hidx : a.length - 1 < a.length := by omega
  rw [List.getElem?_eq_getElem hidx] at hlast
  have hb : arrGet b (a.length - 1) = none := arrGet_of_length_le (by omega)
  have ha' : arrGet a (a.length - 1) = a[a.length - 1] := by
    simp [arrGet, List.getElem?_eq_getElem hidx]
  have hnone : a[a.length - 1] = none := by
    rw [← ha', h, hb]
  exact ha (by rw [hlast, hnone])

/-- Two arrays without a trailing hole that read the same at every index are
equal. -/
theorem arr_ext {a b : List (Option ℚ)} (ha : NoTrailingHole a) (hb : NoTrailingHole b)
    (h : ∀ i, arrGet a i = arrGet b i) : a = b := by
  have hlen : a.length = b.length :=
    le_antisymm (length_le_of_arrGet_eq ha h) (length_le_of_arrGet_eq hb fun i => (h i).symm)
  apply List.ext_getElem?
  intro i
  by_cases hi : i < a.length
  · have hi' : i < b.length := hlen ▸ hi
    have := h i
    simp only [arrGet, List.get?_eq_getElem?, List.getElem?_eq_getElem hi,
      List.getElem?_eq_getElem hi', Option.join] at this
    rw [List.getElem?_eq_getElem hi, List.getElem?_eq_getElem hi']
    exact congrArg some this
  · push_neg at hi
    rw [List.getElem?_eq_none hi, List.getElem?_eq_none (hlen ▸ hi)]

/-! ## Folding a stream twice -/

theorem canonical_seriesOrFresh {ds : PollDataset} (h : Canonical ds) (pollster : String) :
    (seriesOrFresh ds pollster).name = pollster ∧
      (seriesOrFresh ds pollster).color = (objGet pollsterColors pollster).getD "#888888" ∧
      ∀ candidate values, objGet (seriesOrFresh ds pollster).data candidate = some values →
        NoTrailingHole values := by
  unfold seriesOrFresh
  cases hg : objGet ds pollster with
  | none => exact ⟨rfl, rfl, fun c vs hc => by simp [objGet, freshSeries] at hc⟩
  | some s => exact h pollster s hg

theorem name_stepSeries (series : SourceSeries) (row : NormalizedRow) :
    (stepSeries series row).name = series.name := by
  unfold stepSeries
  split <;> rfl

theorem color_stepSeries (series : SourceSeries) (row : NormalizedRow) :
    (stepSeries series row).color = series.color := by
  unfold stepSeries
  split <;> rfl

theorem objGet_data_stepSeries (series : SourceSeries) (row : NormalizedRow)
    (candidate : String) :
    objGet (stepSeries series row).data candidate =
      if row.candidate ∉ inheritedMembers ∧ row.candidate = candidate then
        some (arrSet ((objGet series.data row.candidate).getD [])
          ((addPeriod series.periods row.period).indexOf row.period) row.value)
      else objGet series.data candidate := by
  unfold stepSeries
  by_cases hm : row.candidate ∈ inheritedMembers
  · simp only [hm, if_true, not_true_eq_false, false_and, if_false]
    rfl
  · simp only [hm, if_false, not_false_eq_true, true_and]
    unfold writeValue
    exact objGet_objSet _ _ _ _

theorem canonical_advance {ds : PollDataset} (h : Canonical ds) (row : NormalizedRow) :
    Canonical (advance ds row) := by
  intro pollster series hs
  rw [objGet_advance] at hs
  by_cases hp : row.pollster = pollster
  · simp only [hp, if_true, Option.some.injEq] at hs
    obtain ⟨hname, hcolor, harr⟩ := canonical_seriesOrFresh h pollster
    subst hs
    refine ⟨by rw [name_stepSeries]; exact hname, by rw [color_stepSeries]; exact hcolor, ?_⟩
    intro candidate values hv
    rw [objGet_data_stepSeries] at hv
    by_cases hc : row.candidate ∉ inheritedMembers ∧ row.candidate = candidate
    · rw [if_pos hc] at hv
      simp only [Option.some.injEq] at hv
      subst hv
      apply noTrailingHole_arrSet
      cases hg : objGet (seriesOrFresh ds pollster).data row.candidate with
      | none => exact noTrailingHole_nil
      | some vs => exact harr row.candidate vs hg
    · rw [if_neg hc] at hv
      exact harr candidate values hv
  · simp only [hp, if_false] at hs
    exact h pollster series hs

theorem canonical_pureFold (rows : List NormalizedRow) : Canonical (pureFold rows) := by
  induction rows using List.reverseRecOn with
  | nil =>
    intro pollster series hs
    simp [pureFold, objGet] at hs
  | append_singleton rows row ih =>
    rw [pureFold_append_singleton]
    exact canonical_advance ih row

theorem objKeys_pureFold (rows : List NormalizedRow) :
    objKeys (pureFold rows) = (rows.map fun r => r.pollster).foldl addPeriod [] := by
  induction rows using List.reverseRecOn with
  | nil => rfl
  | append_singleton rows row ih =>
    rw [pureFold_append_singleton]
    unfold advance
    rw [objKeys_objSet, ih]
    simp [List.foldl_append]

theorem dataKeysOf_advance (ds : PollDataset) (row : NormalizedRow) (pollster : String) :
    dataKeysOf (advance ds row) pollster =
      if row.candidate ∉ inheritedMembers ∧ row.pollster = pollster then
        addPeriod (dataKeysOf ds pollster) row.candidate
      else dataKeysOf ds pollster := by
  have hbase : objKeys (seriesOrFresh ds pollster).data = dataKeysOf ds pollster := by
    unfold seriesOrFresh dataKeysOf
    cases objGet ds pollster <;> rfl
  unfold dataKeysOf
  rw [objGet_advance]
  by_cases h : row.pollster = pollster
  · subst h
    simp only [if_true, and_true]
    show objKeys (stepSeries (seriesOrFresh ds row.pollster) row).data = _
    unfold stepSeries
    by_cases hm : row.candidate ∈ inheritedMembers
    · simp only [hm, if_true, not_true_eq_false, if_false]
      exact hbase
    · simp only [hm, if_false, not_false_eq_true, if_true]
      unfold writeValue
      simp only [objKeys_objSet]
      rw [hbase]
      rfl
  · simp [h]

theorem dataKeysOf_pureFold (rows : List NormalizedRow) (pollster : String) :
    dataKeysOf (pureFold rows) pollster =
      (((ownRows rows).filter fun r => r.pollster = pollster).map fun r => r.candidate).foldl
        addPeriod [] := by
  induction rows using List.reverseRecOn with
  | nil => simp [pureFold, dataKeysOf, objGet, ownRows]
  | append_singleton rows row ih =>
    rw [pureFold_append_singleton, dataKeysOf_advance, ih, ownRows_append_singleton]
    by_cases hm : row.candidate ∈ inheritedMembers
    · simp [hm]
    · by_cases h : row.pollster = pollster
      · simp [hm, h, List.filter_append, List.foldl_append]
      · simp [hm, h, List.filter_append]

theorem mem_foldl_addPeriod (labels acc : List String) (x : String)
    (h : x ∈ acc ∨ x ∈ labels) : x ∈ labels.foldl addPeriod acc := by
  induction labels generalizing acc with
  | nil => simpa using h
  | cons y ys ih =>
    rw [List.foldl_cons]
    apply ih
    rcases h with h | h
    · left
      unfold addPeriod
      split
      · exact h
      · exact List.mem_append_left _ h
    · simp only [List.mem_cons] at h
      rcases h with h | h
      · left
        rw [h]
        exact mem_addPeriod _ _
      · exact Or.inr h

theorem foldl_addPeriod_of_subset (labels acc : List String) (h : ∀ x ∈ labels, x ∈ acc) :
    labels.foldl addPeriod acc = acc := by
  induction labels with
  | nil => rfl
  | cons y ys ih =>
    rw [List.foldl_cons]
    have hy : addPeriod acc y = acc := by
      unfold addPeriod
      rw [if_pos (h y (List.mem_cons_self _ _))]
    rw [hy]
    exact ih fun x hx => h x (List.mem_cons_of_mem _ hx)

theorem foldl_addPeriod_append_self (labels : List String) :
    (labels ++ labels).foldl addPeriod [] = labels.foldl addPeriod [] := by
  rw [List.foldl_append]
  exact foldl_addPeriod_of_subset _ _ fun x hx => mem_foldl_addPeriod _ _ x (Or.inr hx)

theorem lastWrite_append_self (rows : List NormalizedRow) (pollster period candidate : String) :
    lastWrite (rows ++ rows) pollster period candidate =
      lastWrite rows pollster period candidate := by
  unfold lastWrite
  rw [List.filter_append, List.getLast?_append]
  cases (rows.filter fun r =>
    r.pollster = pollster ∧ r.period = period ∧ r.candidate = candidate).getLast? <;> rfl

theorem periodsOf_append_self (rows : List NormalizedRow) (pollster : String) :
    periodsOf (pureFold (rows ++ rows)) pollster = periodsOf (pureFold rows) pollster := by
  rw [periodsOf_pureFold, periodsOf_pureFold]
  unfold periodLabels
  rw [List.filter_append, List.map_append]
  exact foldl_addPeriod_append_self _

theorem ownRows_append (rows rows' : List NormalizedRow) :
    ownRows (rows ++ rows') = ownRows rows ++ ownRows rows' := by
  unfold ownRows
  exact List.filter_append _ _

theorem entryOf_append_self (rows : List NormalizedRow) (pollster candidate : String)
    (i : Nat) :
    entryOf (pureFold (rows ++ rows)) pollster candidate i =
      entryOf (pureFold rows) pollster candidate i := by
  have hper := periodsOf_append_self rows pollster
  by_cases hi : i < (periodsOf (pureFold rows) pollster).length
  · have h₁ : (periodsOf (pureFold rows) pollster)[i]? =
        some (periodsOf (pureFold rows) pollster)[i] := List.getElem?_eq_getElem hi
    rw [entryOf_pureFold rows pollster candidate i _ h₁,
      entryOf_pureFold (rows ++ rows) pollster candidate i _ (by rw [hper]; exact h₁),
      ownRows_append, lastWrite_append_self]
  · push_neg at hi
    rw [entryOf_eq_none_of_le (datasetInv_pureFold rows) _ _ hi,
      entryOf_eq_none_of_le (datasetInv_pureFold (rows ++ rows)) _ _ (by rw [hper]; exact hi)]

theorem series_append_self (rows : List NormalizedRow) (pollster : String)
    (s₁ s₂ : SourceSeries) (h₁ : objGet (pureFold (rows ++ rows)) pollster = some s₁)
    (h₂ : objGet (pureFold rows) pollster = some s₂) : s₁ = s₂ := by
  obtain ⟨hn₁, hc₁, ha₁⟩ := canonical_pureFold (rows ++ rows) pollster s₁ h₁
  obtain ⟨hn₂, hc₂, ha₂⟩ := canonical_pureFold rows pollster s₂ h₂
  have hper : s₁.periods = s₂.periods := by
    have := periodsOf_append_self rows pollster
    simpa [periodsOf, h₁, h₂] using this
  have hkeys : objKeys s₁.data = objKeys s₂.data := by
    have e₁ := dataKeysOf_pureFold (rows ++ rows) pollster
    have e₂ := dataKeysOf_pureFold rows pollster
    simp only [dataKeysOf, h₁, h₂] at e₁ e₂
    rw [e₁, e₂, ownRows_append, List.filter_append, List.map_append]
    exact foldl_addPeriod_append_self _
  have hnd : (objKeys s₁.data).Nodup :=
    (wellFormed_pureFold (rows ++ rows)).2 _ (mem_of_objGet h₁)
  have hdata : s₁.data = s₂.data := by
    apply obj_ext hnd hkeys
    intro candidate
    by_cases hmem : candidate ∈ objKeys s₁.data
    · obtain ⟨v₁, hv₁⟩ := objGet_isSome_of_mem hmem
      obtain ⟨v₂, hv₂⟩ := objGet_isSome_of_mem (hkeys ▸ hmem)
      rw [hv₁, hv₂]
      congr 1
      apply arr_ext (ha₁ candidate v₁ hv₁) (ha₂ candidate v₂ hv₂)
      intro i
      have := entryOf_append_self rows pollster candidate i
      simpa [entryOf, entryAt, h₁, h₂, hv₁, hv₂] using this
    · rw [objGet_eq_none_of_not_mem hmem, objGet_eq_none_of_not_mem (hkeys ▸ hmem)]
  obtain ⟨n₁, c₁, p₁, d₁⟩ := s₁
  obtain ⟨n₂, c₂, p₂, d₂⟩ := s₂
  simp only at hn₁ hn₂ hc₁ hc₂ hper hdata
  rw [hn₁, hn₂, hc₁, hc₂, hper, hdata]

theorem pureFold_append_self (rows : List NormalizedRow) :
    pureFold (rows ++ rows) = pureFold rows := by
  have hkeys : objKeys (pureFold (rows ++ rows)) = objKeys (pureFold rows) := by
    rw [objKeys_pureFold, objKeys_pureFold, List.map_append]
    exact foldl_addPeriod_append_self _
  apply obj_ext (wellFormed_pureFold (rows ++ rows)).1 hkeys
  intro pollster
  by_cases hmem : pollster ∈ objKeys (pureFold (rows ++ rows))
  · obtain ⟨s₁, h₁⟩ := objGet_isSome_of_mem hmem
    obtain ⟨s₂, h₂⟩ := objGet_isSome_of_mem (hkeys ▸ hmem)
    rw [h₁, h₂, series_append_self rows pollster s₁ s₂ h₁ h₂]
  · rw [objGet_eq_none_of_not_mem hmem, objGet_eq_none_of_not_mem (hkeys ▸ hmem)]

/-! ## The steps of the fold -/

theorem objSet_objSet {α : Type} (o : List (String × α)) (k : String) (v v' : α) :
    objSet (objSet o k v) k v' = objSet o k v' := by
  induction o with
  | nil => simp [objSet]
  | cons e o ih =>
    obtain ⟨k', w⟩ := e
    by_cases hk : k' = k
    · simp [objSet, hk]
    · simp [objSet, hk, ih]

theorem lookup_of_own {α : Type} (inherited : InheritedProps) {obj : List (String × α)}
    {key : String} {v : α} (h : objGet obj key = some v) :
    lookup inherited obj key = Lookup.own v := by
  simp [lookup, h]

theorem lookup_of_member {α : Type} (inherited : InheritedProps) {obj : List (String × α)}
    {key : String} (h : objGet obj key = none) (hm : key ∈ inheritedMembers) :
    lookup inherited obj key = Lookup.object := by
  simp [lookup, h, hm]

/-- A read that finds neither an own property nor an inherited member finds
a number of the prototype or nothing; which one does not depend on the
object. -/
theorem lookup_of_other {α : Type} (inherited : InheritedProps) {obj : List (String × α)}
    {key : String} (h : objGet obj key = none) (hm : key ∉ inheritedMembers) :
    (∃ v, lookup inherited obj key = Lookup.number v) ∨
      lookup inherited obj key = Lookup.undefined := by
  unfold lookup
  simp only [h, hm, if_false]
  cases arrayIndex key with
  | none => exact Or.inr rfl
  | some n =>
    cases hv : arrGet ((objGet inherited "__proto__").getD []) n with
    | none => exact Or.inr (by simp only [hv])
    | some v => exact Or.inl ⟨v, by simp only [hv]⟩

/-- The four outcomes of lines 110-119. -/
theorem recordValue_eq (st : FoldState) (processed₁ : PollDataset) (series : SourceSeries)
    (row : NormalizedRow) :
    recordValue st processed₁ series row =
      match objGet series.data row.candidate with
      | some _ =>
        ⟨objSet processed₁ row.pollster (writeValue series row), st.inherited, false⟩
      | none =>
        if row.candidate ∈ inheritedMembers then
          ⟨objSet processed₁ row.pollster (pushPeriod series row.period),
            objSet st.inherited row.candidate
              (arrSet ((objGet st.inherited row.candidate).getD [])
                ((addPeriod series.periods row.period).indexOf row.period) row.value),
            false⟩
        else if (lookup st.inherited series.data row.candidate).truthy then
          ⟨objSet processed₁ row.pollster (pushPeriod series row.period), st.inherited, true⟩
        else
          ⟨objSet processed₁ row.pollster (writeValue series row), st.inherited, false⟩ := by
  cases hg : objGet series.data row.candidate with
  | some values =>
    simp only [recordValue, lookup_of_own st.inherited hg, Lookup.truthy, if_true, writeValue,
      hg, Option.getD_some]
  | none =>
    by_cases hm : row.candidate ∈ inheritedMembers
    · simp only [recordValue, lookup_of_member st.inherited hg hm, Lookup.truthy, if_true, hm,
        pushPeriod]
    · simp only [hm, if_false]
      have hnew : objGet (objSet series.data row.candidate ([] : List (Option ℚ)))
          row.candidate = some [] := by
        rw [objGet_objSet]
        simp
      rcases lookup_of_other st.inherited hg hm with ⟨v, hv⟩ | hu
      · by_cases h0 : v = 0
        · simp only [recordValue, hv, Lookup.truthy, h0, ne_eq, not_true_eq_false,
            decide_False, Bool.false_eq_true, if_false, lookup_of_own st.inherited hnew,
            objSet_objSet, writeValue, hg, Option.getD_none]
        · simp only [recordValue, hv, Lookup.truthy, h0, ne_eq, not_false_eq_true,
            decide_True, if_true, pushPeriod]
      · simp only [recordValue, hu, Lookup.truthy, Bool.false_eq_true, if_false,
          lookup_of_own st.inherited hnew, objSet_objSet, writeValue, hg, Option.getD_none]

theorem indexRow_of_thrown (st : FoldState) (row : NormalizedRow) (h : st.thrown = true) :
    indexRow st row = st := by
  simp [indexRow, h]

/-- Line 110 throws when the pollster name reads as something true that is no
own series. -/
theorem indexRow_of_inherited (st : FoldState) (row : NormalizedRow) (h : st.thrown = false)
    (hg : objGet st.processed row.pollster = none)
    (ht : (lookup st.inherited st.processed row.pollster).truthy = true) :
    indexRow st row = { st with thrown := true } := by
  simp [indexRow, h, ht, hg]

/-- Otherwise the step is lines 110-119 on the stored or the fresh series. -/
theorem indexRow_of_series (st : FoldState) (row : NormalizedRow) (h : st.thrown = false)
    (hs : (∃ series, objGet st.processed row.pollster = some series) ∨
      (lookup st.inherited st.processed row.pollster).truthy = false) :
    indexRow st row =
      recordValue st st.processed (seriesOrFresh st.processed row.pollster) row := by
  cases hg : objGet st.processed row.pollster with
  | some series =>
    simp only [indexRow, h, Bool.false_eq_true, if_false, lookup_of_own st.inherited hg,
      Lookup.truthy, if_true, hg, seriesOrFresh]
  | none =>
    have ht : (lookup st.inherited st.processed row.pollster).truthy = false := by
      rcases hs with ⟨series, hs⟩ | hs
      · rw [hg] at hs
        exact absurd hs (by simp)
      · exact hs
    have hnew : objGet (objSet st.processed row.pollster (freshSeries row.pollster))
        row.pollster = some (freshSeries row.pollster) := by
      rw [objGet_objSet]
      simp
    simp only [indexRow, h, Bool.false_eq_true, if_false, ht, hnew, seriesOrFresh, hg]
    rw [recordValue_eq, recordValue_eq]
    simp only [objSet_objSet]

/-- What a step leaves in `processed`: nothing new, or the series of the row
with the period recorded, with or without the value written. -/
theorem processed_indexRow_cases (st : FoldState) (row : NormalizedRow) :
    (indexRow st row).processed = st.processed ∨
      (indexRow st row).processed = objSet st.processed row.pollster
        (pushPeriod (seriesOrFresh st.processed row.pollster) row.period) ∨
      (indexRow st row).processed = objSet st.processed row.pollster
        (writeValue (seriesOrFresh st.processed row.pollster) row) := by
  cases h : st.thrown with
  | true => exact Or.inl (by rw [indexRow_of_thrown st row h])
  | false =>
    by_cases hs : (∃ series, objGet st.processed row.pollster = some series) ∨
        (lookup st.inherited st.processed row.pollster).truthy = false
    · rw [indexRow_of_series st row h hs, recordValue_eq]
      cases objGet (seriesOrFresh st.processed row.pollster).data row.candidate with
      | some values => exact Or.inr (Or.inr rfl)
      | none =>
        simp only
        split
        · exact Or.inr (Or.inl rfl)
        · split
          · exact Or.inr (Or.inl rfl)
          · exact Or.inr (Or.inr rfl)
    · push_neg at hs
      have hg : objGet st.processed row.pollster = none := by
        cases hg : objGet st.processed row.pollster with
        | none => rfl
        | some series => exact absurd hg (hs.1 series)
      have ht : (lookup st.inherited st.processed row.pollster).truthy = true := by
        simpa using hs.2
      rw [indexRow_of_inherited st row h hg ht]
      exact Or.inl rfl

theorem datasetInv_indexRow {st : FoldState} (h : DatasetInv st.processed)
    (row : NormalizedRow) : DatasetInv (indexRow st row).processed := by
  rcases processed_indexRow_cases st row with hc | hc | hc
  · rw [hc]
    exact h
  · rw [hc]
    intro e he
    rcases mem_objSet he with he | he
    · exact h e he
    · subst he
      exact seriesInv_pushPeriod (seriesInv_seriesOrFresh h _) _
  · rw [hc]
    intro e he
    rcases mem_objSet he with he | he
    · exact h e he
    · subst he
      exact seriesInv_writeValue (seriesInv_seriesOrFresh h _) row

theorem datasetInv_processRow (parse : Option String → Option ℚ) {st : FoldState}
    (h : DatasetInv st.processed) (row : RawRow) :
    DatasetInv (processRow parse st row).processed := by
  unfold processRow
  split
  · exact h
  · exact datasetInv_indexRow h _

theorem datasetInv_foldl_processRow (parse : Option String → Option ℚ)
    (data : List RawRow) {st : FoldState} (h : DatasetInv st.processed) :
    DatasetInv (data.foldl (processRow parse) st).processed := by
  induction data generalizing st with
  | nil => exact h
  | cons row data ih => exact ih (datasetInv_processRow parse h row)

/-! ## Folds that do not throw -/

theorem objGet_data_seriesOrFresh_of_member {ds : PollDataset} (h : NoMemberKeys ds)
    (pollster : String) {c : String} (hc : c ∈ inheritedMembers) :
    objGet (seriesOrFresh ds pollster).data c = none := by
  unfold seriesOrFresh
  cases hg : objGet ds pollster with
  | none => simp [freshSeries, objGet]
  | some s => exact h pollster s hg c hc

theorem noMemberKeys_nil : NoMemberKeys [] := by
  intro pollster series hs
  simp [objGet] at hs

theorem noMemberKeys_advance {ds : PollDataset} (h : NoMemberKeys ds) (row : NormalizedRow) :
    NoMemberKeys (advance ds row) := by
  intro pollster series hs c hc
  rw [objGet_advance] at hs
  by_cases hp : row.pollster = pollster
  · simp only [hp, if_true, Option.some.injEq] at hs
    subst hs
    rw [objGet_data_stepSeries]
    by_cases hcond : row.candidate ∉ inheritedMembers ∧ row.candidate = c
    · exact absurd (hcond.2 ▸ hc) hcond.1
    · rw [if_neg hcond]
      exact objGet_data_seriesOrFresh_of_member h pollster hc
  · simp only [hp, if_false] at hs
    exact h pollster series hs c hc

theorem noMemberKeys_foldl_advance (rows : List NormalizedRow) {ds : PollDataset}
    (h : NoMemberKeys ds) : NoMemberKeys (rows.foldl advance ds) := by
  induction rows generalizing ds with
  | nil => exact h
  | cons row rows ih => exact ih (noMemberKeys_advance h row)

/-- A step that does not throw leaves `advance` of `processed`. -/
theorem processed_indexRow {st : FoldState} {row : NormalizedRow}
    (hk : NoMemberKeys st.processed) (h : (indexRow st row).thrown = false) :
    st.thrown = false ∧ (indexRow st row).processed = advance st.processed row := by
  have hst : st.thrown = false := by
    cases ht : st.thrown with
    | false => rfl
    | true =>
      rw [indexRow_of_thrown st row ht, ht] at h
      exact absurd h (by simp)
  refine ⟨hst, ?_⟩
  by_cases hs : (∃ series, objGet st.processed row.pollster = some series) ∨
      (lookup st.inherited st.processed row.pollster).truthy = false
  · rw [indexRow_of_series st row hst hs, recordValue_eq] at h ⊢
    unfold advance stepSeries
    cases hg : objGet (seriesOrFresh st.processed row.pollster).data row.candidate with
    | some values =>
      have hm : row.candidate ∉ inheritedMembers := by
        intro hm
        rw [objGet_data_seriesOrFresh_of_member hk _ hm] at hg
        exact absurd hg (by simp)
      simp only [hm, if_false]
    | none =>
      rw [hg] at h
      by_cases hm : row.candidate ∈ inheritedMembers
      · simp only [hm, if_true]
      · simp only [hm, if_false] at h ⊢
        by_cases ht : (lookup st.inherited (seriesOrFresh st.processed row.pollster).data
            row.candidate).truthy = true
        · simp only [ht, if_true] at h
          exact absurd h (by simp)
        · rw [if_neg ht]
  · push_neg at hs
    have hg : objGet st.processed row.pollster = none := by
      cases hg : objGet st.processed row.pollster with
      | none => rfl
      | some series => exact absurd hg (hs.1 series)
    have ht : (lookup st.inherited st.processed row.pollster).truthy = true := by
      simpa using hs.2
    rw [indexRow_of_inherited st row hst hg ht] at h
    exact absurd h (by simp)

theorem foldl_indexRow_of_thrown (rows : List NormalizedRow) (st : FoldState)
    (h : st.thrown = true) : rows.foldl indexRow st = st := by
  induction rows with
  | nil => rfl
  | cons row rows ih => rw [List.foldl_cons, indexRow_of_thrown st row h, ih]

/-- A fold that does not throw leaves the fold of `advance`. -/
theorem processed_foldl_indexRow (rows : List NormalizedRow) (st : FoldState)
    (hk : NoMemberKeys st.processed) (h : (rows.foldl indexRow st).thrown = false) :
    st.thrown = false ∧
      (rows.foldl indexRow st).processed = rows.foldl advance st.processed := by
  induction rows generalizing st with
  | nil => exact ⟨h, rfl⟩
  | cons r rows ih =>
    simp only [List.foldl_cons] at h ⊢
    have hstep : (indexRow st r).thrown = false := by
      cases ht : (indexRow st r).thrown with
      | false => rfl
      | true =>
        rw [foldl_indexRow_of_thrown rows _ ht, ht] at h
        exact absurd h (by simp)
    obtain ⟨hst, hp⟩ := processed_indexRow hk hstep
    have hk' : NoMemberKeys (indexRow st r).processed := by
      rw [hp]
      exact noMemberKeys_advance hk r
    obtain ⟨_, hrest⟩ := ih (indexRow st r) hk' h
    exact ⟨hst, by rw [hrest, hp]⟩

theorem indexRows_eq_pureFold (rows : List NormalizedRow)
    (h : (foldRows rows).thrown = false) : indexRows rows = pureFold rows :=
  (processed_foldl_indexRow rows FoldState.initial noMemberKeys_nil h).2

theorem not_thrown_of_saturated {st : FoldState} {row : NormalizedRow}
    (hst : st.thrown = false) (hsat : Saturated st.processed row) :
    (indexRow st row).thrown = false := by
  obtain ⟨series, hs, hc⟩ := hsat
  rw [indexRow_of_series st row hst (Or.inl ⟨series, hs⟩), recordValue_eq]
  have hser : seriesOrFresh st.processed row.pollster = series := by
    simp [seriesOrFresh, hs]
  rw [hser]
  rcases hc with hm | ⟨values, hv⟩
  · cases hg : objGet series.data row.candidate with
    | some v => rfl
    | none => simp [hm]
  · simp [hv]

theorem saturated_advance {ds : PollDataset} {row : NormalizedRow} (r : NormalizedRow)
    (h : Saturated ds row) : Saturated (advance ds r) row := by
  obtain ⟨series, hs, hc⟩ := h
  unfold Saturated
  rw [objGet_advance]
  by_cases hp : r.pollster = row.pollster
  · rw [if_pos hp]
    refine ⟨_, rfl, ?_⟩
    rcases hc with hm | ⟨values, hv⟩
    · exact Or.inl hm
    · right
      rw [objGet_data_stepSeries]
      have hser : seriesOrFresh ds r.pollster = series := by
        simp [seriesOrFresh, hp, hs]
      rw [hser]
      by_cases hcond : r.candidate ∉ inheritedMembers ∧ r.candidate = row.candidate
      · exact ⟨_, by rw [if_pos hcond]⟩
      · exact ⟨values, by rw [if_neg hcond]; exact hv⟩
  · rw [if_neg hp]
    exact ⟨series, hs, hc⟩

theorem saturated_advance_self (ds : PollDataset) (row : NormalizedRow) :
    Saturated (advance ds row) row := by
  unfold Saturated
  rw [objGet_advance, if_pos rfl]
  refine ⟨_, rfl, ?_⟩
  by_cases hm : row.candidate ∈ inheritedMembers
  · exact Or.inl hm
  · right
    rw [objGet_data_stepSeries, if_pos ⟨hm, rfl⟩]
    exact ⟨_, rfl⟩

theorem saturated_pureFold (rows : List NormalizedRow) (r : NormalizedRow) (hr : r ∈ rows) :
    Saturated (pureFold rows) r := by
  induction rows using List.reverseRecOn with
  | nil => simp at hr
  | append_singleton rows row ih =>
    rw [pureFold_append_singleton]
    rcases List.mem_append.1 hr with hr | hr
    · exact saturated_advance row (ih hr)
    · simp at hr
      subst hr
      exact saturated_advance_self _ _

theorem not_thrown_foldl_indexRow (rows : List NormalizedRow) (st : FoldState)
    (hst : st.thrown = false) (hk : NoMemberKeys st.processed)
    (hsat : ∀ r ∈ rows, Saturated st.processed r) :
    (rows.foldl indexRow st).thrown = false := by
  induction rows generalizing st with
  | nil => exact hst
  | cons r rows ih =>
    rw [List.foldl_cons]
    have hstep := not_thrown_of_saturated hst (hsat r (List.mem_cons_self _ _))
    obtain ⟨_, hp⟩ := processed_indexRow hk hstep
    apply ih _ hstep
    · rw [hp]
      exact noMemberKeys_advance hk r
    · intro r' hr'
      rw [hp]
      exact saturated_advance r (hsat r' (List.mem_cons_of_mem _ hr'))

theorem foldRows_append (rows rows' : List NormalizedRow) :
    foldRows (rows ++ rows') = rows'.foldl indexRow (foldRows rows) := by
  simp [foldRows, List.foldl_append]

theorem pureFold_append (rows rows' : List NormalizedRow) :
    pureFold (rows ++ rows') = rows'.foldl advance (pureFold rows) := by
  simp [pureFold, List.foldl_append]

/-- Folding the rows a second time changes neither whether the loop threw nor
what is in `processed`. -/
theorem foldRows_append_self (rows : List NormalizedRow) :
    (foldRows (rows ++ rows)).thrown = (foldRows rows).thrown ∧
      (foldRows (rows ++ rows)).processed = (foldRows rows).processed := by
  rw [foldRows_append]
  cases h : (foldRows rows).thrown with
  | true =>
    rw [foldl_indexRow_of_thrown rows _ h]
    exact ⟨h, rfl⟩
  | false =>
    have hp : (foldRows rows).processed = pureFold rows := indexRows_eq_pureFold rows h
    have hk : NoMemberKeys (foldRows rows).processed := by
      rw [hp]
      exact noMemberKeys_foldl_advance rows noMemberKeys_nil
    have hsat : ∀ r ∈ rows, Saturated (foldRows rows).processed r := by
      intro r hr
      rw [hp]
      exact saturated_pureFold rows r hr
    have h₂ := not_thrown_foldl_indexRow rows (foldRows rows) h hk hsat
    refine ⟨h₂, ?_⟩
    rw [(processed_foldl_indexRow rows (foldRows rows) hk h₂).2, hp, ← pureFold_append,
      pureFold_append_self]

theorem foldl_processRow_eq (parse : Option String → Option ℚ) (data : List RawRow)
    (st : FoldState) :
    data.foldl (processRow parse) st = (data.filterMap (normalizeRow parse)).foldl indexRow st := by
  induction data generalizing st with
  | nil => rfl
  | cons row data ih =>
    rw [List.foldl_cons, ih, List.filterMap_cons]
    unfold processRow
    cases normalizeRow parse row <;> rfl

theorem complete_eq_foldRows (parse : Option String → Option ℚ) (data : List RawRow) :
    complete parse data = foldRows (data.filterMap (normalizeRow parse)) :=
  foldl_processRow_eq parse data FoldState.initial

/-! ## What a fold that does not throw builds -/

/-- In a fold that does not throw, the entry at the index of a period is the
value of the last row with that pollster, period and candidate whose candidate
is not named like an inherited member. -/
theorem entryAt_of_not_thrown (rows : List NormalizedRow)
    (h : (foldRows rows).thrown = false) (pollster candidate : String)
    (series : SourceSeries) (i : Nat)
    (hs : objGet (indexRows rows) pollster = some series)
    (hi : i < series.periods.length) :
    entryAt series candidate i =
      lastWrite (ownRows rows) pollster series.periods[i] candidate := by
  rw [indexRows_eq_pureFold rows h] at hs
  have hper : periodsOf (pureFold rows) pollster = series.periods := by
    simp [periodsOf, hs]
  have hent : entryOf (pureFold rows) pollster candidate i = entryAt series candidate i := by
    simp [entryOf, hs]
  rw [← hent]
  apply entryOf_pureFold
  rw [hper]
  exact List.getElem?_eq_getElem hi

/-- In a fold that does not throw, every pollster of the stream has a series,
with its periods in first-seen order. -/
theorem periods_of_not_thrown (rows : List NormalizedRow)
    (h : (foldRows rows).thrown = false) (pollster : String)
    (hocc : ∃ r ∈ rows, r.pollster = pollster) :
    ∃ series, objGet (indexRows rows) pollster = some series ∧
      series.periods = keepFirst (periodLabels rows pollster) := by
  rw [indexRows_eq_pureFold rows h]
  obtain ⟨series, hs⟩ :=
    Option.isSome_iff_exists.1 (objGet_pureFold_isSome rows pollster hocc)
  refine ⟨series, hs, ?_⟩
  have hper : periodsOf (pureFold rows) pollster = series.periods := by
    simp [periodsOf, hs]
  rw [← hper, periodsOf_pureFold, foldl_addPeriod]
  simp

/-! ## Rejected rows -/

theorem normalizeRow_eq_none (parse : Option String → Option ℚ) (row : RawRow)
    (h : isBlank row.Encuestadora = true ∨ isBlank row.Periodo = true ∨
      isBlank row.Candidato = true ∨ parse row.Valor = none) :
    normalizeRow parse row = none := by
  obtain ⟨e, p, c, v⟩ := row
  unfold normalizeRow
  cases e <;> cases p <;> cases c <;> cases hv : parse v <;>
    simp_all [isBlank]

theorem processRow_of_rejected (parse : Option String → Option ℚ) (st : FoldState)
    (row : RawRow) (h : normalizeRow parse row = none) : processRow parse st row = st := by
  simp [processRow, h]

/-! ## C1 -/

/-- C1: for every number parser and every stream of raw rows, after each
single row has been folded in (that is, for every prefix of the stream,
the empty prefix included) every series of `processed` has a duplicate-free
period list and no candidate array longer than that list.  This holds of the
object `processed` whether or not the loop has thrown, so of every dataset
that is delivered. -/
theorem C1_invariant_after_every_row (parse : Option String → Option ℚ)
    (data : List RawRow) (n : Nat) :
    DatasetInv (complete parse (data.take n)).processed :=
  datasetInv_foldl_processRow parse _ datasetInv_nil

/-! ## C2 -/

/-- C2: a raw row that is missing or blank (empty after trimming) in the
pollster, period or candidate column, or whose value parses to `NaN`, has no
effect wherever it stands in the stream: the fold of the stream with the row
inserted is the fold of the stream without it, in what it builds and in
whether it throws, so the row raises no error. -/
theorem C2_rejected_row_is_dropped (parse : Option String → Option ℚ)
    (before after : List RawRow) (row : RawRow)
    (h : isBlank row.Encuestadora = true ∨ isBlank row.Periodo = true ∨
      isBlank row.Candidato = true ∨ parse row.Valor = none) :
    complete parse (before ++ row :: after) = complete parse (before ++ after) := by
  unfold complete
  rw [List.foldl_append, List.foldl_append, List.foldl_cons,
    processRow_of_rejected parse _ row (normalizeRow_eq_none parse row h)]

/-- C2, the scenario of the specification: the row `(DATUM, M3, A, "abc")`
after the three DATUM rows leaves the dataset as it was. -/
theorem C2_rejected_row_is_dropped_witness :
    (isBlank (some "DATUM") = true ∨ isBlank (some "M3") = true ∨
      isBlank (some "A") = true ∨ parseFloat (some "abc") = none) ∧
    complete parseFloat (datumRaw ++ ⟨some "DATUM", some "M3", some "A", some "abc"⟩ :: [])
      = complete parseFloat (datumRaw ++ []) :=
  ⟨Or.inr (Or.inr (Or.inr (by decide))),
   C2_rejected_row_is_dropped parseFloat datumRaw []
    ⟨some "DATUM", some "M3", some "A", some "abc"⟩ (Or.inr (Or.inr (Or.inr (by decide))))⟩

/-! ## C3 -/

/-- C3 at a candidate called `__proto__` and at one called `constructor`.
The row `(DATUM, M2, __proto__, 77)` creates no array: its value goes to index
1 of `Object.prototype`, so the array of `A`, which has no row for `M2`, reads
77 at the index of `M2`.  The row `(DATUM, M1, constructor, 10)` leaves the
series without an array for its candidate. -/
theorem C3_inherited_candidate_breaks_last_write :
    foldRows protoRows =
        ⟨[("DATUM", ⟨"DATUM", "#3b82f6", ["M1", "M2"],
            [("A", [some 5]), ("B", [none, some 6])]⟩)],
          [("__proto__", [none, some 77])], false⟩ ∧
      lastWrite protoRows "DATUM" "M2" "A" = none ∧
      arrayRead (foldRows protoRows).inherited [some 5] 1 = some 77 ∧
      foldRows constructorRows =
        ⟨[("DATUM", ⟨"DATUM", "#3b82f6", ["M1"], []⟩)], [("constructor", [some 10])], false⟩ ∧
      lastWrite constructorRows "DATUM" "M1" "constructor" = some 10 := by
  decide!

/-! ## C4 -/

/-- C4 at a pollster called `constructor`: the read `processed[pollster]`
finds the inherited member, no series is created, line 110 throws, and no
dataset is delivered, while the pollster has the period `M1` in the stream. -/
theorem C4_inherited_pollster_throws :
    foldRows throwRows =
        ⟨[("DATUM", ⟨"DATUM", "#3b82f6", ["M1"], [("A", [some 10])]⟩)], [], true⟩ ∧
      delivered (foldRows throwRows) = none ∧
      objGet (indexRows throwRows) "constructor" = none ∧
      keepFirst (periodLabels throwRows "constructor") = ["M1"] := by
  decide!

/-! ## C5 -/

/-- C5 as stated fails: with two candidates tied at 10 the ranking keeps both,
so it is not strictly descending. -/
theorem C5_strictly_descending_fails :
    rankingData (some (indexRows tiedRows)) "DATUM" =
        [⟨"A", some 10, 0⟩, ⟨"B", some 10, 0⟩] ∧
      ¬ StrictlyDescending (rankingData (some (indexRows tiedRows)) "DATUM") := by
  have h : rankingData (some (indexRows tiedRows)) "DATUM" =
      [⟨"A", some 10, 0⟩, ⟨"B", some 10, 0⟩] := by decide!
  refine ⟨h, ?_⟩
  rw [h]
  simp [StrictlyDescending, toNumber]

/-- C5, amended: for every dataset and pollster name the ranking is sorted
descending by value, ties allowed (each entry's value is greater than or
equal to the next entry's value), and every entry is for a candidate of the
pollster's series that has at least one present value. -/
theorem C5_ranking_descending (pd : PollDataset) (pollster : String) (hwf : WellFormed pd) :
    Descending (rankingData (some pd) pollster) ∧
      ∀ item ∈ rankingData (some pd) pollster,
        ∃ series values, objGet pd pollster = some series ∧
          objGet series.data item.candidate = some values ∧ ∃ v, some v ∈ values := by
  refine ⟨descending_rankingData _ _, ?_⟩
  intro item hitem
  cases hs : objGet pd pollster with
  | none => simp [rankingData, hs] at hitem
  | some series =>
    rw [mem_rankingData hs] at hitem
    simp only [List.mem_filter, List.mem_map] at hitem
    obtain ⟨⟨e, he, rfl⟩, hv⟩ := hitem
    have hk := hwf.2 _ (mem_of_objGet hs)
    refine ⟨series, e.2, rfl, objGet_of_mem hk he, ?_⟩
    rw [rankingItem_value] at hv
    cases hp : presentLatestFirst e.2 with
    | nil => simp [hp] at hv
    | cons l rest =>
      refine ⟨l, ?_⟩
      have : l ∈ presentLatestFirst e.2 := by simp [hp]
      simpa [presentLatestFirst] using this

/-- C5, amended, on the tied dataset. -/
theorem C5_ranking_descending_witness :
    WellFormed (indexRows tiedRows) ∧
      Descending (rankingData (some (indexRows tiedRows)) "DATUM") ∧
      ∀ item ∈ rankingData (some (indexRows tiedRows)) "DATUM",
        ∃ series values, objGet (indexRows tiedRows) "DATUM" = some series ∧
          objGet series.data item.candidate = some values ∧ ∃ v, some v ∈ values :=
  ⟨by decide, C5_ranking_descending (indexRows tiedRows) "DATUM" (by decide)⟩

/-! ## C6 -/

/-- C6: when the dataset has a series for the selected pollster, the ranking
has exactly one entry for each candidate of the series with at least one
present value, and every entry is for a candidate of the series, with the last
present value of its array as value and, as trend, that value minus the
present value before it, or 0 when there is only one.  Presence is being a
number, so a 0 counts. -/
theorem C6_ranking_entries (pd : PollDataset) (pollster : String) (series : SourceSeries)
    (hwf : WellFormed pd) (hs : objGet pd pollster = some series) :
    (∀ candidate values, objGet series.data candidate = some values →
        (∃ v, some v ∈ values) →
        (rankingData (some pd) pollster).countP (fun item => item.candidate = candidate) = 1) ∧
      ∀ item ∈ rankingData (some pd) pollster,
        ∃ values, objGet series.data item.candidate = some values ∧
          RankingSpec values item := by
  have hk := hwf.2 _ (mem_of_objGet hs)
  constructor
  · intro candidate values hg hv
    have hperm : (rankingData (some pd) pollster).Perm
        ((series.data.map fun e => rankingItem e.1 e.2).filter fun item =>
          item.value.isSome) := by
      simp only [rankingData, hs, jsSort]
      exact List.perm_insertionSort _ _
    rw [hperm.countP_eq]
    apply countP_ranking_eq_one _ hk candidate values hg
    rw [rankingItem_value]
    obtain ⟨v, hv⟩ := hv
    have : v ∈ presentLatestFirst values := by simpa [presentLatestFirst] using hv
    cases hp : presentLatestFirst values with
    | nil => simp [hp] at this
    | cons l rest => simp
  · intro item hitem
    rw [mem_rankingData hs] at hitem
    simp only [List.mem_filter, List.mem_map] at hitem
    obtain ⟨⟨e, he, rfl⟩, hv⟩ := hitem
    exact ⟨e.2, objGet_of_mem hk he, rankingItem_spec _ _ hv⟩

/-- C6 on the DATUM scenario: the ranking is `A` with value 12 and trend 2,
then `B` with value 8 and trend 0. -/
theorem C6_ranking_entries_witness :
    rankingData (some (indexRows datumRows)) "DATUM" =
        [⟨"A", some 12, 2⟩, ⟨"B", some 8, 0⟩] ∧
      WellFormed (indexRows datumRows) ∧
      (∀ candidate values,
        objGet [("A", [some (10 : ℚ), some 12]), ("B", [some 8])] candidate = some values →
        (∃ v, some v ∈ values) →
        (rankingData (some (indexRows datumRows)) "DATUM").countP
          (fun item => item.candidate = candidate) = 1) ∧
      ∀ item ∈ rankingData (some (indexRows datumRows)) "DATUM",
        ∃ values,
          objGet [("A", [some (10 : ℚ), some 12]), ("B", [some 8])] item.candidate = some values ∧
            RankingSpec values item :=
  ⟨by decide!, by decide,
    C6_ranking_entries (indexRows datumRows) "DATUM"
      ⟨"DATUM", "#3b82f6", ["M1", "M2"], [("A", [some 10, some 12]), ("B", [some 8])]⟩
      (by decide) (by decide)⟩

/-! ## C7 -/

/-- C7 at a dataset with a candidate called `name`: the series has the periods
`M1` and `M2` and the chart has two points, but the candidate's value is
stored under the property that held the period, so the points read 10 and 12
where the labels `M1` and `M2` are expected. -/
theorem C7_label_overwritten_by_candidate :
    periodsOf (indexRows labelRows) "DATUM" = ["M1", "M2"] ∧
      chartData (some (indexRows labelRows)) "DATUM" ["name"] =
        [[("name", JSVal.num 10)], [("name", JSVal.num 12)]] ∧
      chartData (some (indexRows labelRows)) "DATUM" [] =
        [[("name", JSVal.str "M1")], [("name", JSVal.str "M2")]] := by
  decide!

/-! ## C8 -/

/-- C8 on the DATUM scenario and on the scenario with a candidate called
`name`.  In the scenario the points carry the period and the values, `B`
holding `undefined` at `M2`; with the candidate `name` selected, the property
`name` of the points holds that candidate's entry and the period labels `M1`
and `M2` are gone. -/
theorem C8_point_loses_period_label :
    chartData (some (indexRows datumRows)) "DATUM" ["A", "B"] =
        [[("name", JSVal.str "M1"), ("A", JSVal.num 10), ("B", JSVal.num 8)],
         [("name", JSVal.str "M2"), ("A", JSVal.num 12), ("B", JSVal.undefined)]] ∧
      chartData (some (indexRows datumWithName)) "DATUM" ["A", "B", "name"] =
        [[("name", JSVal.num 7), ("A", JSVal.num 10), ("B", JSVal.num 8)],
         [("name", JSVal.undefined), ("A", JSVal.num 12), ("B", JSVal.undefined)]] := by
  decide!

/-! ## C9 -/

/-- C9: for every dataset and every list of selected candidates,
`comparisonData` has as many rows as there are selected candidates, it is a
rearrangement of the rows built for them (none is left out, whatever it
holds), and it is sorted descending by the mean of the present last values of
each row, a row with none counting as mean 0. -/
theorem C9_comparison_sorted_by_mean (pd : PollDataset) (sel : List String) :
    (comparisonData (some pd) sel).length = sel.length ∧
      (comparisonData (some pd) sel).Perm (sel.map fun candidate => comparisonRow pd candidate) ∧
      (comparisonData (some pd) sel).Pairwise fun a b => rowMean pd b ≤ rowMean pd a := by
  refine ⟨?_, perm_comparisonData pd sel, sorted_comparisonData pd sel⟩
  rw [(perm_comparisonData pd sel).length_eq, List.length_map]

/-! ## C10 -/

/-- C10: for every selected candidate and every pollster of the dataset, the
row built for the candidate is in `comparisonData` and holds, under the key of
the pollster, the last non-absent value of the candidate's array in the series
of that pollster, or `null` when the candidate has no array or no present
value there; and every row of `comparisonData` is one of the rows so built, so
sorting rewrites no stored value. -/
theorem C10_row_stores_last_values (pd : PollDataset) (sel : List String)
    (candidate pollster : String) (series : SourceSeries)
    (hwf : WellFormed pd) (hc : candidate ∈ sel) (hs : objGet pd pollster = some series) :
    comparisonRow pd candidate ∈ comparisonData (some pd) sel ∧
      objGet (comparisonRow pd candidate) pollster =
        some (storedLastValue (objGet series.data candidate)) ∧
      ∀ row ∈ comparisonData (some pd) sel, ∃ c ∈ sel, row = comparisonRow pd c := by
  refine ⟨?_, ?_, ?_⟩
  · rw [(perm_comparisonData pd sel).mem_iff]
    exact List.mem_map_of_mem _ hc
  · rw [objGet_comparisonRow pd hwf.1 candidate pollster series hs,
      lastOrNull_eq_storedLastValue]
  · intro row hrow
    rw [(perm_comparisonData pd sel).mem_iff] at hrow
    simp only [List.mem_map] at hrow
    obtain ⟨c, hc', rfl⟩ := hrow
    exact ⟨c, hc', rfl⟩

/-- C10 on two pollsters: candidate `C` has no data and its row keeps `null`
under both pollsters, after sorting too. -/
theorem C10_row_stores_last_values_witness :
    comparisonData (some (indexRows twoPollsters)) ["A", "B", "C"] =
        [[("candidate", JSVal.str "B"), ("DATUM", JSVal.num 8), ("CPI", JSVal.num 20)],
         [("candidate", JSVal.str "A"), ("DATUM", JSVal.num 12), ("CPI", JSVal.num 0)],
         [("candidate", JSVal.str "C"), ("DATUM", JSVal.null), ("CPI", JSVal.null)]] ∧
      WellFormed (indexRows twoPollsters) ∧ "C" ∈ ["A", "B", "C"] ∧
      objGet (indexRows twoPollsters) "CPI" =
        some ⟨"CPI", "#ef4444", ["M1"], [("B", [some 20]), ("A", [some 0])]⟩ ∧
      comparisonRow (indexRows twoPollsters) "C" ∈
        comparisonData (some (indexRows twoPollsters)) ["A", "B", "C"] ∧
      objGet (comparisonRow (indexRows twoPollsters) "C") "CPI" =
        some (storedLastValue (objGet [("B", [some (20 : ℚ)]), ("A", [some 0])] "C")) ∧
      ∀ row ∈ comparisonData (some (indexRows twoPollsters)) ["A", "B", "C"],
        ∃ c ∈ ["A", "B", "C"], row = comparisonRow (indexRows twoPollsters) c :=
  ⟨by decide!, by decide, by decide, by decide,
    C10_row_stores_last_values (indexRows twoPollsters) ["A", "B", "C"] "C" "CPI"
      ⟨"CPI", "#ef4444", ["M1"], [("B", [some 20]), ("A", [some 0])]⟩
      (by decide) (by decide) (by decide)⟩

/-! ## C11 -/

/-- C11 at rows of another pollster that is called `constructor`, or that has
a candidate called `__proto__`.  With the pollster `constructor` in the stream
nothing is delivered, while the rows of `DATUM` alone deliver its series.  With
the candidate `__proto__` of `CPI` in the stream, index 1 of `Object.prototype`
holds 77, so the array of `A` in `DATUM` reads 77 at the index of `M2`, while
after the rows of `DATUM` alone it reads nothing there. -/
theorem C11_other_pollster_interferes :
    delivered (foldRows throwRows) = none ∧
      delivered (foldRows (throwRows.filter fun r => r.pollster = "DATUM")) =
        some [("DATUM", ⟨"DATUM", "#3b82f6", ["M1"], [("A", [some 10])]⟩)] ∧
      objGet (indexRows crossRows) "DATUM" =
        some ⟨"DATUM", "#3b82f6", ["M1", "M2"], [("A", [some 5]), ("B", [none, some 6])]⟩ ∧
      arrayRead (foldRows crossRows).inherited [some 5] 1 = some 77 ∧
      objGet (indexRows (crossRows.filter fun r => r.pollster = "DATUM")) "DATUM" =
        some ⟨"DATUM", "#3b82f6", ["M1", "M2"], [("A", [some 5]), ("B", [none, some 6])]⟩ ∧
      arrayRead (foldRows (crossRows.filter fun r => r.pollster = "DATUM")).inherited
        [some 5] 1 = none := by
  decide!

/-! ## C12 -/

/-- C12: for every stream of raw rows, folding the stream followed by itself
from the initial state ends as folding it once does: the loop throws in both
or in neither, the object `processed` is the same (the same pollsters in the
same order, the same period lists and the same candidate arrays, holes
included), and so the same dataset, or none, is delivered. -/
theorem C12_append_idempotent (parse : Option String → Option ℚ) (data : List RawRow) :
    (complete parse (data ++ data)).thrown = (complete parse data).thrown ∧
      (complete parse (data ++ data)).processed = (complete parse data).processed ∧
      delivered (complete parse (data ++ data)) = delivered (complete parse data) := by
  rw [complete_eq_foldRows, complete_eq_foldRows, List.filterMap_append]
  obtain ⟨ht, hp⟩ := foldRows_append_self (data.filterMap (normalizeRow parse))
  refine ⟨ht, hp, ?_⟩
  unfold delivered
  rw [ht, hp]

end ObservatorioElectoral
